import Mathlib

/-!
Verification of the diff/merge/copy code generator in `cgen/diff.go`.

The repository's single source file defines Go text templates
(`diffTemplate`, `mergeTemplate`, `diffMethodsTemplate`, `copyMethods`)
that, for every record struct of a schema, generate
  - a `TDiff` struct (optional scalar slots, optional sub-diff slots, and a
    `map[Key]*VDiff` per map field in which a `nil` entry is the removal marker),
  - `func (o T) diff(n T) *TDiff`,
  - `func (o T) merge(d *TDiff) (T, bool)`,
  - `func (o T) Copy() T`,
plus root wrappers `Diff`/`Merge`.

We embed the generated algorithm shallowly over a representative schema that
exercises every member kind at two nesting depths:

  Leaf  { v : int }
  Inner { x : int; leafs : map[nat]Leaf }
  Outer { n : int; s : string; inner : Inner; items : map[nat]Inner }   (root)

Go map values are modelled extensionally as key-sorted association lists
(`SMap`), so that two maps are equal exactly when they contain the same
entries; iteration in the generated loops is modelled as structural recursion
over the entry list (the Go algorithms are order-independent).
The mutable-storage facts (copy-on-write, aliasing of interior maps) are
modelled separately with an explicit heap of map cells addressed by ids.
-/

namespace Svckit

/-! ## Association lists and sorted maps -/

/-- Lookup in an association list (first matching key). -/
def lookupL {α : Type} : List (Nat × α) → Nat → Option α
  | [], _ => none
  | (k, v) :: rest, j => if j = k then some v else lookupL rest j

/-- Insert into a key-sorted association list, replacing an existing binding. -/
def insertL {α : Type} (j : Nat) (v : α) : List (Nat × α) → List (Nat × α)
  | [] => [(j, v)]
  | (k, w) :: rest =>
    if j < k then (j, v) :: (k, w) :: rest
    else if j = k then (j, v) :: rest
    else (k, w) :: insertL j v rest

/-- Remove the binding for a key from an association list (first occurrence). -/
def eraseL {α : Type} (j : Nat) : List (Nat × α) → List (Nat × α)
  | [] => []
  | (k, w) :: rest => if j = k then rest else (k, w) :: eraseL j rest

/-- The strict key order on entries. -/
def entLt {α : Type} (p q : Nat × α) : Prop := p.1 < q.1

instance {α : Type} : DecidableRel (entLt (α := α)) := fun p q =>
  inferInstanceAs (Decidable (p.1 < q.1))

/-- A Go map value, modelled extensionally: entries sorted by strictly
increasing key, so equal maps have equal representations. -/
structure SMap (α : Type) where
  entries : List (Nat × α)
  sorted : entries.Pairwise entLt

instance {α : Type} [DecidableEq α] : DecidableEq (SMap α) := fun a b =>
  if h : a.entries = b.entries then
    isTrue (by cases a; cases b; simp only at h; subst h; rfl)
  else
    isFalse (fun e => h (congrArg SMap.entries e))

def SMap.empty {α : Type} : SMap α := ⟨[], List.Pairwise.nil⟩

def SMap.lookup {α : Type} (m : SMap α) (j : Nat) : Option α := lookupL m.entries j

def SMap.isEmpty {α : Type} (m : SMap α) : Bool := m.entries.isEmpty

theorem mem_insertL {α : Type} (j : Nat) (v : α) :
    ∀ (l : List (Nat × α)) (q : Nat × α), q ∈ insertL j v l → q = (j, v) ∨ q ∈ l := by
  intro l
  induction l with
  | nil =>
    intro q hq
    simp only [insertL, List.mem_singleton] at hq
    exact Or.inl hq
  | cons r rs ihr =>
    intro q hq
    obtain ⟨k, w⟩ := r
    simp only [insertL] at hq
    by_cases ha : j < k
    · simp only [if_pos ha, List.mem_cons] at hq
      rcases hq with h | h | h
      · exact Or.inl h
      · exact Or.inr (by simp [h])
      · exact Or.inr (List.mem_cons_of_mem _ h)
    · by_cases hb : j = k
      · simp only [if_neg ha, if_pos hb, List.mem_cons] at hq
        rcases hq with h | h
        · exact Or.inl h
        · exact Or.inr (List.mem_cons_of_mem _ h)
      · simp only [if_neg ha, if_neg hb, List.mem_cons] at hq
        rcases hq with h | h
        · exact Or.inr (by simp [h])
        · rcases ihr q h with h' | h'
          · exact Or.inl h'
          · exact Or.inr (List.mem_cons_of_mem _ h')

theorem mem_eraseL {α : Type} (j : Nat) :
    ∀ (l : List (Nat × α)) (q : Nat × α), q ∈ eraseL j l → q ∈ l := by
  intro l
  induction l with
  | nil => intro q hq; simp [eraseL] at hq
  | cons r rs ihr =>
    intro q hq
    obtain ⟨k, w⟩ := r
    simp only [eraseL] at hq
    by_cases hb : j = k
    · simp only [if_pos hb] at hq
      exact List.mem_cons_of_mem _ hq
    · simp only [if_neg hb, List.mem_cons] at hq
      rcases hq with h' | h'
      · exact by simp [h']
      · exact List.mem_cons_of_mem _ (ihr q h')

theorem insertL_sorted {α : Type} (j : Nat) (v : α) :
    ∀ (l : List (Nat × α)), l.Pairwise entLt → (insertL j v l).Pairwise entLt := by
  intro l
  induction l with
  | nil => intro _; simp [insertL, entLt]
  | cons p rest ih =>
    intro hs
    obtain ⟨k, w⟩ := p
    rw [List.pairwise_cons] at hs
    obtain ⟨hk, hrest⟩ := hs
    by_cases h1 : j < k
    · simp only [insertL, if_pos h1]
      refine List.Pairwise.cons ?_ (List.Pairwise.cons hk hrest)
      intro q hq
      rcases List.mem_cons.mp hq with hq | hq
      · subst hq; exact h1
      · exact lt_trans h1 (hk q hq)
    · by_cases h2 : j = k
      · simp only [insertL, if_neg h1, if_pos h2]
        subst h2
        exact List.Pairwise.cons hk hrest
      · simp only [insertL, if_neg h1, if_neg h2]
        refine List.Pairwise.cons ?_ (ih hrest)
        have hkj : k < j := by omega
        intro q hq
        rcases mem_insertL j v rest q hq with h | h
        · subst h; exact hkj
        · exact hk q h

theorem eraseL_sorted {α : Type} (j : Nat) :
    ∀ (l : List (Nat × α)), l.Pairwise entLt → (eraseL j l).Pairwise entLt := by
  intro l
  induction l with
  | nil => intro _; simp [eraseL]
  | cons p rest ih =>
    intro hs
    rw [List.pairwise_cons] at hs
    obtain ⟨hk, hrest⟩ := hs
    obtain ⟨k, w⟩ := p
    by_cases h : j = k
    · simpa [eraseL, h] using hrest
    · simp only [eraseL, if_neg h]
      refine List.Pairwise.cons ?_ (ih hrest)
      intro q hq
      exact hk q (mem_eraseL j rest q hq)

def SMap.insert {α : Type} (m : SMap α) (j : Nat) (v : α) : SMap α :=
  ⟨insertL j v m.entries, insertL_sorted j v m.entries m.sorted⟩

def SMap.erase {α : Type} (m : SMap α) (j : Nat) : SMap α :=
  ⟨eraseL j m.entries, eraseL_sorted j m.entries m.sorted⟩

/-! ### Lookup lemmas -/

theorem lookupL_none_of_forall_lt {α : Type} (j : Nat) :
    ∀ (l : List (Nat × α)), (∀ p ∈ l, j < p.1) → lookupL l j = none := by
  intro l
  induction l with
  | nil => intro _; rfl
  | cons p rest ih =>
    intro h
    have hj : j ≠ p.1 := Nat.ne_of_lt (h p (by simp))
    obtain ⟨k, v⟩ := p
    simp only at hj
    simp only [lookupL, if_neg hj]
    exact ih (fun q hq => h q (List.mem_cons_of_mem _ hq))

theorem lookupL_insertL_self {α : Type} (j : Nat) (v : α) :
    ∀ (l : List (Nat × α)), lookupL (insertL j v l) j = some v := by
  intro l
  induction l with
  | nil => simp [insertL, lookupL]
  | cons p rest ih =>
    obtain ⟨k, w⟩ := p
    by_cases h1 : j < k
    · simp [insertL, if_pos h1, lookupL]
    · by_cases h2 : j = k
      · simp [insertL, if_neg h1, if_pos h2, lookupL]
      · simp only [insertL, if_neg h1, if_neg h2, lookupL, if_neg h2]
        exact ih

theorem lookupL_insertL_other {α : Type} (j i : Nat) (v : α) (hne : i ≠ j) :
    ∀ (l : List (Nat × α)), lookupL (insertL j v l) i = lookupL l i := by
  intro l
  induction l with
  | nil => simp [insertL, lookupL, if_neg hne]
  | cons p rest ih =>
    obtain ⟨k, w⟩ := p
    by_cases h1 : j < k
    · simp [insertL, if_pos h1, lookupL, if_neg hne]
    · by_cases h2 : j = k
      · subst h2
        simp [insertL, if_neg h1, lookupL, if_neg hne]
      · simp only [insertL, if_neg h1, if_neg h2, lookupL]
        by_cases h3 : i = k
        · simp [if_pos h3]
        · simp only [if_neg h3]
          exact ih

theorem lookupL_eraseL_self {α : Type} (j : Nat) :
    ∀ (l : List (Nat × α)), l.Pairwise entLt → lookupL (eraseL j l) j = none := by
  intro l
  induction l with
  | nil => intro _; rfl
  | cons p rest ih =>
    intro hs
    rw [List.pairwise_cons] at hs
    obtain ⟨hk, hrest⟩ := hs
    obtain ⟨k, w⟩ := p
    by_cases h : j = k
    · simp only [eraseL, if_pos h]
      subst h
      exact lookupL_none_of_forall_lt j rest (fun q hq => hk q hq)
    · simp only [eraseL, if_neg h, lookupL, if_neg h]
      exact ih hrest

theorem lookupL_eraseL_other {α : Type} (j i : Nat) (hne : i ≠ j) :
    ∀ (l : List (Nat × α)), lookupL (eraseL j l) i = lookupL l i := by
  intro l
  induction l with
  | nil => rfl
  | cons p rest ih =>
    obtain ⟨k, w⟩ := p
    by_cases h : j = k
    · subst h
      simp [eraseL, lookupL, if_neg hne]
    · simp only [eraseL, if_neg h, lookupL]
      by_cases h3 : i = k
      · simp [if_pos h3]
      · simp only [if_neg h3]
        exact ih

@[simp] theorem SMap.lookup_empty {α : Type} (j : Nat) :
    (SMap.empty (α := α)).lookup j = none := rfl

@[simp] theorem SMap.lookup_insert_self {α : Type} (m : SMap α) (j : Nat) (v : α) :
    (m.insert j v).lookup j = some v := lookupL_insertL_self j v m.entries

theorem SMap.lookup_insert_other {α : Type} (m : SMap α) (j i : Nat) (v : α) (h : i ≠ j) :
    (m.insert j v).lookup i = m.lookup i := lookupL_insertL_other j i v h m.entries

@[simp] theorem SMap.lookup_erase_self {α : Type} (m : SMap α) (j : Nat) :
    (m.erase j).lookup j = none := lookupL_eraseL_self j m.entries m.sorted

theorem SMap.lookup_erase_other {α : Type} (m : SMap α) (j i : Nat) (h : i ≠ j) :
    (m.erase j).lookup i = m.lookup i := lookupL_eraseL_other j i h m.entries

/-! ### Membership and extensionality -/

theorem lookupL_eq_some_of_mem {α : Type} {k : Nat} {v : α} :
    ∀ (l : List (Nat × α)), l.Pairwise entLt → (k, v) ∈ l → lookupL l k = some v := by
  intro l
  induction l with
  | nil => intro _ hm; cases hm
  | cons p rest ih =>
    intro hs hm
    rw [List.pairwise_cons] at hs
    obtain ⟨hk, hrest⟩ := hs
    obtain ⟨a, b⟩ := p
    rcases List.mem_cons.mp hm with hm | hm
    · cases hm
      simp [lookupL]
    · have hne : k ≠ a := by
        have := hk _ hm
        simp only [entLt] at this
        omega
      simp only [lookupL, if_neg hne]
      exact ih hrest hm

theorem mem_of_lookupL_eq_some {α : Type} {l : List (Nat × α)} {k : Nat} {v : α}
    (h : lookupL l k = some v) : (k, v) ∈ l := by
  induction l with
  | nil => simp [lookupL] at h
  | cons p rest ih =>
    obtain ⟨a, b⟩ := p
    simp only [lookupL] at h
    by_cases hk : k = a
    · subst hk
      simp only [if_pos rfl] at h
      cases h
      simp
    · simp only [if_neg hk] at h
      exact List.mem_cons_of_mem _ (ih h)

theorem SMap.lookup_eq_some_of_mem {α : Type} (m : SMap α) {k : Nat} {v : α}
    (hm : (k, v) ∈ m.entries) : m.lookup k = some v :=
  lookupL_eq_some_of_mem m.entries m.sorted hm

/-- Two sorted association lists with the same lookups are equal. -/
theorem lookupL_ext {α : Type} :
    ∀ (l₁ l₂ : List (Nat × α)), l₁.Pairwise entLt → l₂.Pairwise entLt →
      (∀ j, lookupL l₁ j = lookupL l₂ j) → l₁ = l₂ := by
  intro l₁
  induction l₁ with
  | nil =>
    intro l₂ _ hs₂ h
    cases l₂ with
    | nil => rfl
    | cons q rest₂ =>
      obtain ⟨k₂, v₂⟩ := q
      have := h k₂
      simp [lookupL] at this
  | cons p rest₁ ih =>
    intro l₂ hs₁ hs₂ h
    obtain ⟨k₁, v₁⟩ := p
    cases l₂ with
    | nil =>
      have := h k₁
      simp [lookupL] at this
    | cons q rest₂ =>
      obtain ⟨k₂, v₂⟩ := q
      rw [List.pairwise_cons] at hs₁ hs₂
      obtain ⟨hk₁, hrest₁⟩ := hs₁
      obtain ⟨hk₂, hrest₂⟩ := hs₂
      have hkeys : k₁ = k₂ := by
        by_cases hlt : k₁ < k₂
        · exfalso
          have h1 := h k₁
          have h2 : lookupL rest₂ k₁ = none :=
            lookupL_none_of_forall_lt k₁ rest₂
              (fun q hq => lt_trans hlt (hk₂ q hq))
          have hne : k₁ ≠ k₂ := Nat.ne_of_lt hlt
          simp [lookupL, if_neg hne, h2] at h1
        · by_cases hgt : k₂ < k₁
          · exfalso
            have h1 := h k₂
            have h2 : lookupL rest₁ k₂ = none :=
              lookupL_none_of_forall_lt k₂ rest₁
                (fun q hq => lt_trans hgt (hk₁ q hq))
            have hne : k₂ ≠ k₁ := Nat.ne_of_lt hgt
            simp [lookupL, if_neg hne, h2] at h1
          · omega
      subst hkeys
      have hvals : v₁ = v₂ := by
        have h1 := h k₁
        simp [lookupL] at h1
        exact h1
      subst hvals
      have htails : rest₁ = rest₂ := by
        refine ih rest₂ hrest₁ hrest₂ ?_
        intro j
        by_cases hj : j = k₁
        · subst hj
          rw [lookupL_none_of_forall_lt j rest₁ (fun q hq => hk₁ q hq),
            lookupL_none_of_forall_lt j rest₂ (fun q hq => hk₂ q hq)]
        · have := h j
          simpa [lookupL, if_neg hj] using this
      rw [htails]

theorem SMap.ext_lookup {α : Type} {m₁ m₂ : SMap α}
    (h : ∀ j, m₁.lookup j = m₂.lookup j) : m₁ = m₂ := by
  have he : m₁.entries = m₂.entries :=
    lookupL_ext m₁.entries m₂.entries m₁.sorted m₂.sorted h
  cases m₁; cases m₂
  simp only at he
  subst he
  rfl

theorem SMap.eq_empty_of_lookup_none {α : Type} {m : SMap α}
    (h : ∀ j, m.lookup j = none) : m = SMap.empty :=
  SMap.ext_lookup (fun j => by rw [h j]; rfl)

theorem SMap.lookup_ne_of_ne {α : Type} {m₁ m₂ : SMap α} (h : m₁ ≠ m₂) :
    ∃ j, m₁.lookup j ≠ m₂.lookup j := by
  by_contra hc
  push_neg at hc
  exact h (SMap.ext_lookup hc)

/-! ## The representative record types

`Leaf`, `Inner`, `Outer` instantiate the schema shapes the templates in
`cgen/diff.go` range over: scalar fields (template range `.Fields`), a
nested-record field (`.StructFields`), and map-of-record fields (`.Maps`),
with maps occurring at two nesting depths.  `Outer` is the root struct. -/

structure Leaf where
  v : Int
deriving DecidableEq

/-- The Go zero value of `Leaf` (used when a map key is absent). -/
def Leaf.zero : Leaf := ⟨0⟩

structure Inner where
  x : Int
  leafs : SMap Leaf
deriving DecidableEq

/-- The Go zero value of `Inner`: zero scalar, nil (empty) map. -/
def Inner.zero : Inner := ⟨0, SMap.empty⟩

structure Outer where
  n : Int
  s : String
  inner : Inner
  items : SMap Inner
deriving DecidableEq

/-! ## Diff types (from `diffTemplate`)

Each scalar slot is `*T` (`Option`), each nested-record slot is `*TDiff`
(`Option`), and each map field is `map[Key]*VDiff`: an entry whose value is
`none` is the generated `Nil` marker (key removed); an absent key means the
key is untouched. -/

structure LeafDiff where
  v : Option Int
deriving DecidableEq

structure InnerDiff where
  x : Option Int
  leafs : SMap (Option LeafDiff)
deriving DecidableEq

structure OuterDiff where
  n : Option Int
  s : Option String
  inner : Option InnerDiff
  items : SMap (Option InnerDiff)
deriving DecidableEq

/-- Modelled from the spec: the generated `empty()` body is
`{{join .NilConditions " &&\n"}}`, and the code computing `NilConditions` is
not part of `src/cgen/diff.go`.  The spec defines: a delta is empty iff every
scalar slot is absent, every nested-record slot's sub-delta is
empty-or-absent, and every map is empty.  (`diff` only ever stores absent or
non-empty sub-deltas and resets length-0 maps to nil, so at its sole call
site this coincides with the plain nil-checks the generator would emit.) -/
def LeafDiff.empty (i : LeafDiff) : Bool := i.v.isNone

/-- Modelled from the spec: emptiness of an `InnerDiff` (see `LeafDiff.empty`). -/
def InnerDiff.empty (i : InnerDiff) : Bool := i.x.isNone && i.leafs.isEmpty

/-- Modelled from the spec: emptiness of an `OuterDiff` (see `LeafDiff.empty`). -/
def OuterDiff.empty (i : OuterDiff) : Bool :=
  i.n.isNone && i.s.isNone &&
    (match i.inner with
     | none => true
     | some sd => sd.empty) &&
    i.items.isEmpty

/-! ## The map loops of the generated `merge` and `diff`

The template bodies for a map field are identical for every record type up to
the names of the key/value types and of the element `merge`/`diff`; we embed
them once, parameterised by the element operations, and instantiate them per
field below. -/

/-- The per-map loop of `mergeTemplate` (lines 153-180 of `diff.go`):
iterate the delta's entries; a `nil` entry deletes the key if present
(cloning the map first); otherwise merge the existing value (zero value if
the key is absent) with the sub-delta and write it back if the element merge
reports a change.  `sync.Once` guarantees the clone (which also sets
`changed`) happens at most once, so the boolean returned is "some entry
actually mutated the map".  The functional state `m` plays the role of the
(possibly cloned) map `o.Field`. -/
def mergeMapGo {V D : Type} (vm : V → D → V × Bool) (zero : V) :
    List (Nat × Option D) → SMap V → SMap V × Bool
  | [], m => (m, false)
  | (k, dc) :: rest, m =>
    match dc with
    | none =>
      if (m.lookup k).isSome then
        ((mergeMapGo vm zero rest (m.erase k)).1, true)
      else
        mergeMapGo vm zero rest m
    | some dv =>
      let c := (m.lookup k).getD zero
      let p := vm c dv
      if p.2 then
        ((mergeMapGo vm zero rest (m.insert k p.1)).1, true)
      else
        mergeMapGo vm zero rest m

/-- First map pass of `diffMethodsTemplate` (lines 209-219): for every key of
`new`, diff the corresponding `old` value (zero value if absent) against it
and record the sub-diff under the key when it is non-nil. -/
def diffNewPass {V D : Type} (vd : V → V → Option D) (zero : V) (old : SMap V) :
    List (Nat × V) → SMap (Option D) → SMap (Option D)
  | [], acc => acc
  | (k, nc) :: rest, acc =>
    let oc := (old.lookup k).getD zero
    match vd oc nc with
    | some ip => diffNewPass vd zero old rest (acc.insert k (some ip))
    | none => diffNewPass vd zero old rest acc

/-- Second map pass of `diffMethodsTemplate` (lines 221-225): every key of
`old` absent from `new` gets the `nil` marker. -/
def diffOldPass {V D : Type} (new : SMap V) :
    List (Nat × V) → SMap (Option D) → SMap (Option D)
  | [], acc => acc
  | (k, _) :: rest, acc =>
    if (new.lookup k).isSome then
      diffOldPass new rest acc
    else
      diffOldPass new rest (acc.insert k none)

/-- The full map-field diff: both passes starting from the fresh empty map
(the trailing `if len == 0 then nil` of the template is the identity here,
since nil and empty Go maps are observationally equal and `SMap` is
extensional). -/
def diffMapGo {V D : Type} (vd : V → V → Option D) (zero : V)
    (old new : SMap V) : SMap (Option D) :=
  diffOldPass new old.entries (diffNewPass vd zero old new.entries SMap.empty)

/-! ## The generated `merge` methods (`mergeTemplate`) -/

/-- The per-scalar-field statement of `mergeTemplate`:
`if d.F != nil && *d.F != o.F { o.F = *d.F; changed = true }`.
Returns the field's new value together with this field's contribution to
`changed`. -/
def scalarMerge {α : Type} [DecidableEq α] (cur : α) (dv : Option α) : α × Bool :=
  match dv with
  | some w => if w ≠ cur then (w, true) else (cur, false)
  | none => (cur, false)

/-- The per-scalar-field statement of `diffMethodsTemplate`:
`if n.F != o.F { i.F = &n.F }`. -/
def scalarDiff {α : Type} [DecidableEq α] (cur nv : α) : Option α :=
  if nv ≠ cur then some nv else none

/-- `func (o Leaf) merge(d *LeafDiff) (Leaf, bool)`. -/
def Leaf.merge (o : Leaf) (d : Option LeafDiff) : Leaf × Bool :=
  match d with
  | none => (o, false)
  | some dd =>
    let sv := scalarMerge o.v dd.v
    (⟨sv.1⟩, sv.2)

/-- `func (o Inner) merge(d *InnerDiff) (Inner, bool)`. -/
def Inner.merge (o : Inner) (d : Option InnerDiff) : Inner × Bool :=
  match d with
  | none => (o, false)
  | some dd =>
    let sx := scalarMerge o.x dd.x
    let pm := mergeMapGo (fun c dv => Leaf.merge c (some dv)) Leaf.zero
      dd.leafs.entries o.leafs
    (⟨sx.1, pm.1⟩, sx.2 || pm.2)

/-- `func (o Outer) merge(d *OuterDiff) (Outer, bool)`. -/
def Outer.merge (o : Outer) (d : Option OuterDiff) : Outer × Bool :=
  match d with
  | none => (o, false)
  | some dd =>
    let sn := scalarMerge o.n dd.n
    let ss := scalarMerge o.s dd.s
    let pi := Inner.merge o.inner dd.inner
    let inner2 := if pi.2 then pi.1 else o.inner
    let pm := mergeMapGo (fun c dv => Inner.merge c (some dv)) Inner.zero
      dd.items.entries o.items
    (⟨sn.1, ss.1, inner2, pm.1⟩, sn.2 || ss.2 || pi.2 || pm.2)

/-- Root wrapper `func (o Outer) Merge(d OuterDiff) Outer` (IsRoot branch of
`mergeTemplate`): applies the internal merge to a non-nil diff and discards
the changed flag. -/
def Outer.Merge (o : Outer) (d : OuterDiff) : Outer := (Outer.merge o (some d)).1

/-! ## The generated `diff` methods (`diffMethodsTemplate`) -/

/-- `func (o Leaf) diff(n Leaf) *LeafDiff`. -/
def Leaf.diff (o : Leaf) (n : Leaf) : Option LeafDiff :=
  let i : LeafDiff := ⟨scalarDiff o.v n.v⟩
  if i.empty then none else some i

/-- `func (o Inner) diff(n Inner) *InnerDiff`. -/
def Inner.diff (o : Inner) (n : Inner) : Option InnerDiff :=
  let i : InnerDiff :=
    ⟨scalarDiff o.x n.x,
     diffMapGo Leaf.diff Leaf.zero o.leafs n.leafs⟩
  if i.empty then none else some i

/-- `func (o Outer) diff(n Outer) *OuterDiff`. -/
def Outer.diff (o : Outer) (n : Outer) : Option OuterDiff :=
  let i : OuterDiff :=
    ⟨scalarDiff o.n n.n,
     scalarDiff o.s n.s,
     Inner.diff o.inner n.inner,
     diffMapGo Inner.diff Inner.zero o.items n.items⟩
  if i.empty then none else some i

/-- Root wrapper `func (o Outer) Diff(n Outer) *OuterDiff`. -/
def Outer.Diff (o : Outer) (n : Outer) : Option OuterDiff := Outer.diff o n

/-! ## Characterisation of the map loops -/

/-- What one delta entry does to the value stored under its key. -/
def mergeEntryVal {V D : Type} (vm : V → D → V × Bool) (zero : V)
    (mv : Option V) : Option D → Option V
  | none => none
  | some dv =>
    let p := vm (mv.getD zero) dv
    if p.2 then some p.1 else mv

/-- Whether one delta entry actually mutates the map (triggering the clone). -/
def mergeEntryFlag {V D : Type} (vm : V → D → V × Bool) (zero : V)
    (mv : Option V) : Option D → Bool
  | none => mv.isSome
  | some dv => (vm (mv.getD zero) dv).2

theorem mergeMapGo_lookup {V D : Type} (vm : V → D → V × Bool) (zero : V) :
    ∀ (l : List (Nat × Option D)) (m : SMap V), l.Pairwise entLt → ∀ j,
      ((mergeMapGo vm zero l m).1).lookup j =
        match lookupL l j with
        | none => m.lookup j
        | some dc => mergeEntryVal vm zero (m.lookup j) dc := by
  intro l
  induction l with
  | nil => intro m _ j; rfl
  | cons p rest ih =>
    intro m hs j
    obtain ⟨k, dc⟩ := p
    rw [List.pairwise_cons] at hs
    obtain ⟨hk, hrest⟩ := hs
    have hrestk : lookupL rest k = none :=
      lookupL_none_of_forall_lt k rest (fun q hq => hk q hq)
    match dc with
    | none =>
      by_cases hin : (m.lookup k).isSome
      · simp only [mergeMapGo, if_pos hin]
        have := ih (m.erase k) hrest j
        by_cases hj : j = k
        · subst hj
          simp only [lookupL, if_pos rfl]
          rw [this, hrestk]
          simp [mergeEntryVal]
        · simp only [lookupL, if_neg hj]
          rw [this]
          rcases hl : lookupL rest j with _ | dc'
          · simp only [SMap.lookup_erase_other m k j hj]
          · simp only [SMap.lookup_erase_other m k j hj]
      · simp only [mergeMapGo, if_neg hin]
        have := ih m hrest j
        by_cases hj : j = k
        · subst hj
          simp only [lookupL, if_pos rfl]
          rw [this, hrestk]
          simp only [Option.isSome] at hin
          rcases hmk : m.lookup j with _ | w
          · simp [mergeEntryVal]
          · rw [hmk] at hin; simp at hin
        · simp only [lookupL, if_neg hj]
          rw [this]
    | some dv =>
      by_cases hp : (vm ((m.lookup k).getD zero) dv).2
      · simp only [mergeMapGo, if_pos hp]
        have := ih (m.insert k (vm ((m.lookup k).getD zero) dv).1) hrest j
        by_cases hj : j = k
        · subst hj
          simp only [lookupL, if_pos rfl]
          rw [this, hrestk]
          simp [mergeEntryVal, hp, SMap.lookup_insert_self]
        · simp only [lookupL, if_neg hj]
          rw [this]
          rcases hl : lookupL rest j with _ | dc'
          · simp only [SMap.lookup_insert_other _ k j _ hj]
          · simp only [SMap.lookup_insert_other _ k j _ hj]
      · simp only [mergeMapGo, if_neg hp]
        have := ih m hrest j
        by_cases hj : j = k
        · subst hj
          simp only [lookupL, if_pos rfl]
          rw [this, hrestk]
          simp [mergeEntryVal, hp]
        · simp only [lookupL, if_neg hj]
          rw [this]

theorem mergeMapGo_flag {V D : Type} (vm : V → D → V × Bool) (zero : V) :
    ∀ (l : List (Nat × Option D)) (m : SMap V),
      (mergeMapGo vm zero l m).2 =
        l.any (fun p => mergeEntryFlag vm zero (m.lookup p.1) p.2) := by
  intro l
  induction l with
  | nil => intro m; rfl
  | cons p rest ih =>
    intro m
    obtain ⟨k, dc⟩ := p
    match dc with
    | none =>
      by_cases hin : (m.lookup k).isSome
      · simp [mergeMapGo, if_pos hin, mergeEntryFlag, hin]
      · simp only [mergeMapGo, if_neg hin]
        rw [ih m]
        simp only [List.any_cons]
        have : mergeEntryFlag vm zero (m.lookup k) none = false := by
          simp only [mergeEntryFlag]
          exact Bool.not_eq_true _ ▸ (by simpa using hin)
        rw [this]
        simp
    | some dv =>
      by_cases hp : (vm ((m.lookup k).getD zero) dv).2
      · simp [mergeMapGo, if_pos hp, mergeEntryFlag, hp]
      · simp only [mergeMapGo, if_neg hp]
        rw [ih m]
        simp only [List.any_cons]
        have : mergeEntryFlag vm zero (m.lookup k) (some dv) = false := by
          simp only [mergeEntryFlag]
          exact Bool.not_eq_true _ ▸ hp
        rw [this]
        simp

theorem diffNewPass_lookup {V D : Type} (vd : V → V → Option D) (zero : V)
    (old : SMap V) :
    ∀ (l : List (Nat × V)) (acc : SMap (Option D)), l.Pairwise entLt →
      (∀ p ∈ l, acc.lookup p.1 = none) → ∀ j,
      (diffNewPass vd zero old l acc).lookup j =
        match lookupL l j with
        | some nc =>
          (match vd ((old.lookup j).getD zero) nc with
           | some ip => some (some ip)
           | none => none)
        | none => acc.lookup j := by
  intro l
  induction l with
  | nil => intro acc _ _ j; rfl
  | cons p rest ih =>
    intro acc hs hacc j
    obtain ⟨k, nc⟩ := p
    rw [List.pairwise_cons] at hs
    obtain ⟨hk, hrest⟩ := hs
    have hrestk : lookupL rest k = none :=
      lookupL_none_of_forall_lt k rest (fun q hq => hk q hq)
    by_cases hj : j = k
    · subst hj
      have hll : lookupL ((j, nc) :: rest) j = some nc := by simp [lookupL]
      rw [hll]
      rcases hvd : vd ((old.lookup j).getD zero) nc with _ | ip
      · simp only [diffNewPass, hvd]
        rw [ih acc hrest (fun q hq => hacc q (List.mem_cons_of_mem _ hq)) j,
          hrestk]
        exact hacc (j, nc) (by simp)
      · simp only [diffNewPass, hvd]
        have hacc2 : ∀ q ∈ rest, (acc.insert j (some ip)).lookup q.1 = none := by
          intro q hq
          have hne : q.1 ≠ j := by
            have := hk q hq
            simp only [entLt] at this
            omega
          rw [SMap.lookup_insert_other _ j q.1 _ hne]
          exact hacc q (List.mem_cons_of_mem _ hq)
        rw [ih (acc.insert j (some ip)) hrest hacc2 j, hrestk]
        simp
    · have hll : lookupL ((k, nc) :: rest) j = lookupL rest j := by
        simp [lookupL, hj]
      rw [hll]
      rcases hvd : vd ((old.lookup k).getD zero) nc with _ | ip
      · simp only [diffNewPass, hvd]
        rw [ih acc hrest (fun q hq => hacc q (List.mem_cons_of_mem _ hq)) j]
      · simp only [diffNewPass, hvd]
        have hacc2 : ∀ q ∈ rest, (acc.insert k (some ip)).lookup q.1 = none := by
          intro q hq
          have hne : q.1 ≠ k := by
            have := hk q hq
            simp only [entLt] at this
            omega
          rw [SMap.lookup_insert_other _ k q.1 _ hne]
          exact hacc q (List.mem_cons_of_mem _ hq)
        rw [ih (acc.insert k (some ip)) hrest hacc2 j]
        rcases hl : lookupL rest j with _ | nc'
        · exact SMap.lookup_insert_other _ k j _ hj
        · rfl

theorem diffOldPass_lookup {V D : Type} (new : SMap V) :
    ∀ (l : List (Nat × V)) (acc : SMap (Option D)), l.Pairwise entLt → ∀ j,
      (diffOldPass new l acc).lookup j =
        match lookupL l j with
        | some _ => if (new.lookup j).isSome then acc.lookup j else some none
        | none => acc.lookup j := by
  intro l
  induction l with
  | nil => intro acc _ j; rfl
  | cons p rest ih =>
    intro acc hs j
    obtain ⟨k, oc⟩ := p
    rw [List.pairwise_cons] at hs
    obtain ⟨hk, hrest⟩ := hs
    have hrestk : lookupL rest k = none :=
      lookupL_none_of_forall_lt k rest (fun q hq => hk q hq)
    by_cases hj : j = k
    · subst hj
      have hll : lookupL ((j, oc) :: rest) j = some oc := by simp [lookupL]
      rw [hll]
      by_cases hin : (new.lookup j).isSome
      · simp only [diffOldPass, if_pos hin]
        rw [ih acc hrest j, hrestk, if_pos hin]
      · simp only [diffOldPass, if_neg hin]
        rw [ih (acc.insert j none) hrest j, hrestk, if_neg hin]
        simp
    · have hll : lookupL ((k, oc) :: rest) j = lookupL rest j := by
        simp [lookupL, hj]
      rw [hll]
      by_cases hin : (new.lookup k).isSome
      · simp only [diffOldPass, if_pos hin]
        rw [ih acc hrest j]
      · simp only [diffOldPass, if_neg hin]
        rw [ih (acc.insert k none) hrest j]
        rcases hl : lookupL rest j with _ | oc'
        · exact SMap.lookup_insert_other _ k j _ hj
        · by_cases hnj : (new.lookup j).isSome
          · simp only [if_pos hnj]
            exact SMap.lookup_insert_other _ k j _ hj
          · simp only [if_neg hnj]

/-- Per-key behaviour of a generated map-field diff. -/
theorem diffMapGo_lookup {V D : Type} (vd : V → V → Option D) (zero : V)
    (old new : SMap V) (j : Nat) :
    (diffMapGo vd zero old new).lookup j =
      match new.lookup j with
      | some nc =>
        (match vd ((old.lookup j).getD zero) nc with
         | some ip => some (some ip)
         | none => none)
      | none =>
        match old.lookup j with
        | some _ => some none
        | none => none := by
  unfold diffMapGo
  have hold := diffOldPass_lookup new old.entries
    (diffNewPass vd zero old new.entries SMap.empty) old.sorted j
  have hnew := diffNewPass_lookup vd zero old new.entries SMap.empty new.sorted
    (fun p _ => rfl) j
  rw [hold, hnew]
  have e1 : lookupL old.entries j = old.lookup j := rfl
  have e2 : lookupL new.entries j = new.lookup j := rfl
  rw [e1, e2]
  rcases ho : old.lookup j with _ | oc <;>
    rcases hn : new.lookup j with _ | nc <;>
      simp [ho, hn]

/-! ## Diffing a value against itself -/

theorem diffMapGo_self {V D : Type} (vd : V → V → Option D) (zero : V)
    (hrefl : ∀ a, vd a a = none) (m : SMap V) :
    diffMapGo vd zero m m = SMap.empty := by
  apply SMap.eq_empty_of_lookup_none
  intro j
  rw [diffMapGo_lookup]
  rcases h : m.lookup j with _ | v <;> simp [h, hrefl]

@[simp] theorem scalarDiff_self {α : Type} [DecidableEq α] (cur : α) :
    scalarDiff cur cur = none := by
  simp [scalarDiff]

theorem Leaf.diff_self_leaf (x : Leaf) : Leaf.diff x x = none := by
  simp [Leaf.diff, LeafDiff.empty]

theorem Inner.diff_self_inner (x : Inner) : Inner.diff x x = none := by
  simp [Inner.diff, InnerDiff.empty,
    diffMapGo_self Leaf.diff Leaf.zero Leaf.diff_self_leaf x.leafs, SMap.isEmpty,
    SMap.empty]

theorem Outer.diff_self_outer (x : Outer) : Outer.diff x x = none := by
  simp [Outer.diff, OuterDiff.empty, Inner.diff_self_inner,
    diffMapGo_self Inner.diff Inner.zero Inner.diff_self_inner x.items, SMap.isEmpty,
    SMap.empty]

/-! ## Exactness of the changed flag -/

theorem mergeMapGo_exact {V D : Type} [DecidableEq V]
    (vm : V → D → V × Bool) (zero : V)
    (hvm : ∀ c dv, (vm c dv).2 = true ↔ (vm c dv).1 ≠ c)
    (dl : SMap (Option D)) (m : SMap V) :
    (mergeMapGo vm zero dl.entries m).2 = true ↔
      (mergeMapGo vm zero dl.entries m).1 ≠ m := by
  rw [mergeMapGo_flag vm zero dl.entries m, List.any_eq_true]
  constructor
  · rintro ⟨p, hp, hflag⟩
    obtain ⟨k, dc⟩ := p
    intro heq
    have hlk : dl.lookup k = some dc := SMap.lookup_eq_some_of_mem dl hp
    have hres := mergeMapGo_lookup vm zero dl.entries m dl.sorted k
    rw [heq] at hres
    rw [show lookupL dl.entries k = some dc from hlk] at hres
    match dc with
    | none =>
      simp only [mergeEntryFlag] at hflag
      simp only [mergeEntryVal] at hres
      rw [hres] at hflag
      simp at hflag
    | some dv =>
      simp only [mergeEntryFlag] at hflag
      simp only [mergeEntryVal, hflag, if_pos] at hres
      have hne := (hvm ((m.lookup k).getD zero) dv).mp hflag
      rcases hmk : m.lookup k with _ | c0
      · rw [hmk] at hres; exact Option.noConfusion hres
      · rw [hmk] at hres hne
        simp only [Option.getD_some] at hres hne
        exact hne (Option.some.inj hres).symm
  · intro hne
    by_contra hall
    push_neg at hall
    apply hne
    apply SMap.ext_lookup
    intro j
    rw [mergeMapGo_lookup vm zero dl.entries m dl.sorted j]
    rcases hl : lookupL dl.entries j with _ | dc
    · rfl
    · have hmem : (j, dc) ∈ dl.entries := mem_of_lookupL_eq_some hl
      have hflag := hall (j, dc) hmem
      match dc with
      | none =>
        simp only [mergeEntryFlag] at hflag
        simp only [mergeEntryVal]
        rcases hmk : m.lookup j with _ | c0
        · rfl
        · rw [hmk] at hflag; simp at hflag
      | some dv =>
        simp only [mergeEntryFlag] at hflag
        simp only [mergeEntryVal, hflag]
        simp

theorem scalarMerge_exact {α : Type} [DecidableEq α] (cur : α) (dv : Option α) :
    (scalarMerge cur dv).2 = true ↔ (scalarMerge cur dv).1 ≠ cur := by
  match dv with
  | none => simp [scalarMerge]
  | some w => by_cases h : w = cur <;> simp [scalarMerge, h]

theorem Leaf.merge_exact_leaf (o : Leaf) (d : Option LeafDiff) :
    (Leaf.merge o d).2 = true ↔ (Leaf.merge o d).1 ≠ o := by
  match d with
  | none => simp [Leaf.merge]
  | some dd =>
    obtain ⟨ov⟩ := o
    simpa [Leaf.merge, Leaf.mk.injEq] using scalarMerge_exact ov dd.v

theorem Inner.merge_exact_inner (o : Inner) (d : Option InnerDiff) :
    (Inner.merge o d).2 = true ↔ (Inner.merge o d).1 ≠ o := by
  match d with
  | none => simp [Inner.merge]
  | some dd =>
    have hmap := mergeMapGo_exact (fun c dv => Leaf.merge c (some dv)) Leaf.zero
      (fun c dv => Leaf.merge_exact_leaf c (some dv)) dd.leafs o.leafs
    have hsc := scalarMerge_exact o.x dd.x
    obtain ⟨ox, om⟩ := o
    simp only at hmap hsc
    simp only [Inner.merge, Bool.or_eq_true, ne_eq, Inner.mk.injEq, not_and_or]
    constructor
    · rintro (hx | hm)
      · exact Or.inl (hsc.mp hx)
      · exact Or.inr (hmap.mp hm)
    · rintro (hx | hm)
      · exact Or.inl (hsc.mpr hx)
      · exact Or.inr (hmap.mpr hm)

theorem Outer.merge_exact_outer (o : Outer) (d : Option OuterDiff) :
    (Outer.merge o d).2 = true ↔ (Outer.merge o d).1 ≠ o := by
  match d with
  | none => simp [Outer.merge]
  | some dd =>
    have hmap := mergeMapGo_exact (fun c dv => Inner.merge c (some dv)) Inner.zero
      (fun c dv => Inner.merge_exact_inner c (some dv)) dd.items o.items
    have hn := scalarMerge_exact o.n dd.n
    have hs := scalarMerge_exact o.s dd.s
    have hi := Inner.merge_exact_inner o.inner dd.inner
    obtain ⟨vn, vs, vi, vmp⟩ := o
    simp only at hmap hn hs hi
    have hi2 : ((if (Inner.merge vi dd.inner).2 then (Inner.merge vi dd.inner).1
        else vi) ≠ vi) ↔ (Inner.merge vi dd.inner).2 = true := by
      cases hb : (Inner.merge vi dd.inner).2 with
      | false => simp
      | true => simp [hi.mp hb]
    simp only [Outer.merge, Bool.or_eq_true, ne_eq, Outer.mk.injEq, not_and_or]
    constructor
    · rintro (((h1 | h2) | h3) | h4)
      · exact Or.inl (hn.mp h1)
      · exact Or.inr (Or.inl (hs.mp h2))
      · exact Or.inr (Or.inr (Or.inl (hi2.mpr h3)))
      · exact Or.inr (Or.inr (Or.inr (hmap.mp h4)))
    · rintro (h1 | h2 | h3 | h4)
      · exact Or.inl (Or.inl (Or.inl (hn.mpr h1)))
      · exact Or.inl (Or.inl (Or.inr (hs.mpr h2)))
      · exact Or.inl (Or.inr (hi2.mp h3))
      · exact Or.inr (hmap.mpr h4)

/-! ## Structure of non-empty diffs -/

theorem scalarDiff_eq_none_iff {α : Type} [DecidableEq α] (cur nv : α) :
    scalarDiff cur nv = none ↔ nv = cur := by
  by_cases h : nv = cur <;> simp [scalarDiff, h]

theorem Leaf.diff_some_eq_leaf (o n : Leaf) (i : LeafDiff) (h : Leaf.diff o n = some i) :
    i = ⟨scalarDiff o.v n.v⟩ ∧ i.empty = false := by
  rw [Leaf.diff] at h
  by_cases hemp : (LeafDiff.mk (scalarDiff o.v n.v)).empty = true
  · rw [if_pos hemp] at h
    exact absurd h (by simp)
  · rw [if_neg hemp] at h
    cases h
    exact ⟨rfl, Bool.not_eq_true _ ▸ hemp⟩

theorem Inner.diff_some_eq_inner (o n : Inner) (i : InnerDiff) (h : Inner.diff o n = some i) :
    i = ⟨scalarDiff o.x n.x, diffMapGo Leaf.diff Leaf.zero o.leafs n.leafs⟩ ∧
      i.empty = false := by
  rw [Inner.diff] at h
  by_cases hemp : (InnerDiff.mk (scalarDiff o.x n.x)
      (diffMapGo Leaf.diff Leaf.zero o.leafs n.leafs)).empty = true
  · rw [if_pos hemp] at h
    exact absurd h (by simp)
  · rw [if_neg hemp] at h
    cases h
    exact ⟨rfl, Bool.not_eq_true _ ▸ hemp⟩

theorem Outer.diff_some_eq_outer (o n : Outer) (i : OuterDiff) (h : Outer.diff o n = some i) :
    i = ⟨scalarDiff o.n n.n, scalarDiff o.s n.s, Inner.diff o.inner n.inner,
        diffMapGo Inner.diff Inner.zero o.items n.items⟩ ∧ i.empty = false := by
  rw [Outer.diff] at h
  by_cases hemp : (OuterDiff.mk (scalarDiff o.n n.n) (scalarDiff o.s n.s)
      (Inner.diff o.inner n.inner)
      (diffMapGo Inner.diff Inner.zero o.items n.items)).empty = true
  · rw [if_pos hemp] at h
    exact absurd h (by simp)
  · rw [if_neg hemp] at h
    cases h
    exact ⟨rfl, Bool.not_eq_true _ ▸ hemp⟩

/-! ## Round trip -/

theorem scalarMerge_diff_rt {α : Type} [DecidableEq α] (cur nv : α) :
    scalarMerge cur (scalarDiff cur nv) = (nv, decide (cur ≠ nv)) := by
  by_cases h : nv = cur
  · subst h
    simp [scalarMerge, scalarDiff]
  · have h' : cur ≠ nv := fun e => h e.symm
    simp [scalarMerge, scalarDiff, h, h']

theorem Leaf.merge_diff_rt_leaf (o n : Leaf) :
    Leaf.merge o (Leaf.diff o n) = (n, decide (o ≠ n)) := by
  obtain ⟨ov⟩ := o
  obtain ⟨nv⟩ := n
  by_cases h : nv = ov
  · subst h
    simp [Leaf.diff, Leaf.merge, LeafDiff.empty, scalarDiff]
  · have h' : ov ≠ nv := fun e => h e.symm
    simp [Leaf.diff, Leaf.merge, LeafDiff.empty, scalarDiff, scalarMerge, h, h',
      Leaf.mk.injEq]

theorem Leaf.diff_none_iff (o n : Leaf) : Leaf.diff o n = none ↔ o = n := by
  constructor
  · intro h
    have := Leaf.merge_diff_rt_leaf o n
    rw [h] at this
    simp only [Leaf.merge] at this
    have h1 := congrArg Prod.fst this
    simpa using h1
  · intro h
    rw [h]
    exact Leaf.diff_self_leaf n

theorem Leaf.diff_some_merge_leaf (o n : Leaf) (dv : LeafDiff)
    (h : Leaf.diff o n = some dv) : Leaf.merge o (some dv) = (n, true) := by
  have hne : o ≠ n := by
    intro he
    rw [he, Leaf.diff_self_leaf n] at h
    exact Option.noConfusion h
  have := Leaf.merge_diff_rt_leaf o n
  rw [h] at this
  rw [this]
  simp [hne]

/-- The generic round trip for one map field: merging the diff of a map field
back into the old map yields the new map, and the clone fires exactly when
the maps differ.  The element operations are assumed to round-trip on all
pairs related by `R`, and `R` must hold between the old and new values at
every key of `new` (against the zero value, with a non-zero new value, when
the key is fresh). -/
theorem mergeMapGo_diffMapGo_rt {V D : Type} [DecidableEq V]
    (vd : V → V → Option D) (vm : V → D → V × Bool) (zero : V)
    (R : V → V → Prop)
    (hrefl : ∀ a, vd a a = none)
    (hnone : ∀ a b, R a b → vd a b = none → a = b)
    (hsome : ∀ a b dv, R a b → vd a b = some dv → vm a dv = (b, true))
    (old new : SMap V)
    (hR : ∀ k nv, new.lookup k = some nv →
      (∀ ov, old.lookup k = some ov → R ov nv) ∧
      (old.lookup k = none → nv ≠ zero ∧ R zero nv)) :
    mergeMapGo vm zero (diffMapGo vd zero old new).entries old =
      (new, decide (old ≠ new)) := by
  have hmapeq : (mergeMapGo vm zero (diffMapGo vd zero old new).entries old).1
      = new := by
    apply SMap.ext_lookup
    intro j
    rw [mergeMapGo_lookup vm zero (diffMapGo vd zero old new).entries old
      (diffMapGo vd zero old new).sorted j]
    have hd := diffMapGo_lookup vd zero old new j
    have e : lookupL (diffMapGo vd zero old new).entries j =
        (diffMapGo vd zero old new).lookup j := rfl
    rw [e, hd]
    rcases hn : new.lookup j with _ | nv
    · rcases ho : old.lookup j with _ | ov
      · simp
      · simp [mergeEntryVal]
    · rcases ho : old.lookup j with _ | ov
      · obtain ⟨hnz, hRz⟩ := (hR j nv hn).2 ho
        rcases hvd : vd zero nv with _ | ip
        · exact absurd (hnone zero nv hRz hvd).symm hnz
        · simp only [Option.getD_none]
          rw [hvd]
          simp only [mergeEntryVal, Option.getD_none]
          rw [hsome zero nv ip hRz hvd]
          simp
      · have hRo := (hR j nv hn).1 ov ho
        rcases hvd : vd ov nv with _ | ip
        · have heqv : ov = nv := hnone ov nv hRo hvd
          simp only [Option.getD_some]
          rw [hvd]
          simp [heqv]
        · simp only [Option.getD_some]
          rw [hvd]
          simp only [mergeEntryVal, Option.getD_some]
          rw [hsome ov nv ip hRo hvd]
          simp
  have hflag : (mergeMapGo vm zero (diffMapGo vd zero old new).entries old).2
      = decide (old ≠ new) := by
    rw [mergeMapGo_flag]
    by_cases heq : old = new
    · subst heq
      rw [diffMapGo_self vd zero hrefl old]
      simp [SMap.empty]
    · have hdec : decide (old ≠ new) = true := by simp [heq]
      rw [hdec, List.any_eq_true]
      obtain ⟨j, hj⟩ := SMap.lookup_ne_of_ne heq
      have hd := diffMapGo_lookup vd zero old new j
      rcases hn : new.lookup j with _ | nv
      · rcases ho : old.lookup j with _ | ov
        · exact absurd (ho.trans hn.symm) hj
        · rw [hn, ho] at hd
          have hd' : (diffMapGo vd zero old new).lookup j = some none := by
            rw [hd]
          refine ⟨(j, none), mem_of_lookupL_eq_some hd', ?_⟩
          simp [mergeEntryFlag, ho]
      · rcases ho : old.lookup j with _ | ov
        · obtain ⟨hnz, hRz⟩ := (hR j nv hn).2 ho
          rcases hvd : vd zero nv with _ | ip
          · exact absurd (hnone zero nv hRz hvd).symm hnz
          · rw [hn, ho] at hd
            simp only [Option.getD_none] at hd
            rw [hvd] at hd
            have hd' : (diffMapGo vd zero old new).lookup j = some (some ip) := by
              rw [hd]
            refine ⟨(j, some ip), mem_of_lookupL_eq_some hd', ?_⟩
            simp only [mergeEntryFlag, ho, Option.getD_none]
            rw [hsome zero nv ip hRz hvd]
        · have hRo := (hR j nv hn).1 ov ho
          rcases hvd : vd ov nv with _ | ip
          · exact absurd (ho.trans ((hnone ov nv hRo hvd) ▸ hn.symm)) hj
          · rw [hn, ho] at hd
            simp only [Option.getD_some] at hd
            rw [hvd] at hd
            have hd' : (diffMapGo vd zero old new).lookup j = some (some ip) := by
              rw [hd]
            refine ⟨(j, some ip), mem_of_lookupL_eq_some hd', ?_⟩
            simp only [mergeEntryFlag, ho, Option.getD_some]
            rw [hsome ov nv ip hRo hvd]
  rw [Prod.ext_iff]
  exact ⟨hmapeq, hflag⟩

/-- Side condition under which diff/merge round-trips on an `Inner` pair:
every key of `n.leafs` that is absent from `o.leafs` holds a non-zero
record.  The generated diff records, for a key fresh in `new`, the diff of
the zero record against the new value, which is nil when the value IS the
zero record; merge then cannot re-create that entry. -/
def Inner.rtOK (o n : Inner) : Bool :=
  n.leafs.entries.all fun p =>
    match o.leafs.lookup p.1 with
    | some _ => true
    | none => decide (p.2 ≠ Leaf.zero)

/-- Side condition for the round trip on `Outer` pairs (see `Inner.rtOK`),
imposed recursively through the nested-record field and the map values. -/
def Outer.rtOK (o n : Outer) : Bool :=
  Inner.rtOK o.inner n.inner &&
    (n.items.entries.all fun p =>
      match o.items.lookup p.1 with
      | some ov => Inner.rtOK ov p.2
      | none => decide (p.2 ≠ Inner.zero) && Inner.rtOK Inner.zero p.2)

theorem Inner.merge_diff_rt_inner (o n : Inner) (hok : Inner.rtOK o n = true) :
    Inner.merge o (Inner.diff o n) = (n, decide (o ≠ n)) := by
  simp only [Inner.rtOK] at hok
  have hR : ∀ k nv, n.leafs.lookup k = some nv →
      (∀ ov, o.leafs.lookup k = some ov → True) ∧
      (o.leafs.lookup k = none → nv ≠ Leaf.zero ∧ True) := by
    intro k nv hlk
    refine ⟨fun _ _ => trivial, fun hnonk => ⟨?_, trivial⟩⟩
    have hmem : (k, nv) ∈ n.leafs.entries := mem_of_lookupL_eq_some hlk
    have hall := List.all_eq_true.mp hok (k, nv) hmem
    simp only at hall
    rw [hnonk] at hall
    simpa using hall
  have hmain := mergeMapGo_diffMapGo_rt Leaf.diff
    (fun c dv => Leaf.merge c (some dv)) Leaf.zero (fun _ _ => True)
    Leaf.diff_self_leaf
    (fun a b _ h => (Leaf.diff_none_iff a b).mp h)
    (fun a b dv _ h => Leaf.diff_some_merge_leaf a b dv h)
    o.leafs n.leafs hR
  by_cases hemp : (InnerDiff.mk (scalarDiff o.x n.x)
      (diffMapGo Leaf.diff Leaf.zero o.leafs n.leafs)).empty = true
  · have hdiff : Inner.diff o n = none := by
      rw [Inner.diff, if_pos hemp]
    simp only [InnerDiff.empty, Bool.and_eq_true] at hemp
    obtain ⟨hxn, hme⟩ := hemp
    have hx : n.x = o.x := by
      rcases hsd : scalarDiff o.x n.x with _ | w
      · exact (scalarDiff_eq_none_iff o.x n.x).mp hsd
      · rw [hsd] at hxn; simp at hxn
    have hentries : (diffMapGo Leaf.diff Leaf.zero o.leafs n.leafs).entries
        = [] := by
      simpa [SMap.isEmpty, List.isEmpty_iff] using hme
    have hml : o.leafs = n.leafs := by
      rw [hentries] at hmain
      simp only [mergeMapGo] at hmain
      have h1 := congrArg Prod.fst hmain
      simpa using h1
    have hon : o = n := by
      obtain ⟨ox, ol⟩ := o
      obtain ⟨nx, nl⟩ := n
      simp only at hx hml
      rw [Inner.mk.injEq]
      exact ⟨hx.symm, hml⟩
    rw [hdiff, hon]
    simp [Inner.merge]
  · have hdiff : Inner.diff o n = some ⟨scalarDiff o.x n.x,
        diffMapGo Leaf.diff Leaf.zero o.leafs n.leafs⟩ := by
      rw [Inner.diff, if_neg hemp]
    rw [hdiff]
    simp only [Inner.merge]
    rw [scalarMerge_diff_rt o.x n.x, hmain]
    obtain ⟨ox, ol⟩ := o
    obtain ⟨nx, nl⟩ := n
    simp only
    have hiff : ((⟨ox, ol⟩ : Inner) ≠ ⟨nx, nl⟩) ↔ (ox ≠ nx ∨ ol ≠ nl) := by
      simp only [ne_eq, Inner.mk.injEq, not_and_or]
    rw [Prod.ext_iff]
    refine ⟨rfl, ?_⟩
    rw [decide_eq_decide.mpr hiff, Bool.decide_or]

theorem Inner.diff_none_of_rtOK (o n : Inner) (hok : Inner.rtOK o n = true)
    (h : Inner.diff o n = none) : o = n := by
  have := Inner.merge_diff_rt_inner o n hok
  rw [h] at this
  simp only [Inner.merge] at this
  have h1 := congrArg Prod.fst this
  simpa using h1

theorem Inner.diff_some_merge_inner (o n : Inner) (dv : InnerDiff)
    (hok : Inner.rtOK o n = true) (h : Inner.diff o n = some dv) :
    Inner.merge o (some dv) = (n, true) := by
  have hne : o ≠ n := by
    intro he
    rw [he, Inner.diff_self_inner n] at h
    exact Option.noConfusion h
  have := Inner.merge_diff_rt_inner o n hok
  rw [h] at this
  rw [this]
  simp [hne]

theorem Outer.merge_diff_rt_outer (o n : Outer) (hok : Outer.rtOK o n = true) :
    Outer.merge o (Outer.diff o n) = (n, decide (o ≠ n)) := by
  simp only [Outer.rtOK, Bool.and_eq_true] at hok
  obtain ⟨hoki, hokm⟩ := hok
  have hR : ∀ k nv, n.items.lookup k = some nv →
      (∀ ov, o.items.lookup k = some ov → Inner.rtOK ov nv = true) ∧
      (o.items.lookup k = none →
        nv ≠ Inner.zero ∧ Inner.rtOK Inner.zero nv = true) := by
    intro k nv hlk
    have hmem : (k, nv) ∈ n.items.entries := mem_of_lookupL_eq_some hlk
    have hall := List.all_eq_true.mp hokm (k, nv) hmem
    simp only at hall
    constructor
    · intro ov hov
      rw [hov] at hall
      exact hall
    · intro hnonk
      rw [hnonk] at hall
      simp only [Bool.and_eq_true, decide_eq_true_eq] at hall
      exact hall
  have hmain := mergeMapGo_diffMapGo_rt Inner.diff
    (fun c dv => Inner.merge c (some dv)) Inner.zero
    (fun a b => Inner.rtOK a b = true)
    Inner.diff_self_inner
    (fun a b hr h => Inner.diff_none_of_rtOK a b hr h)
    (fun a b dv hr h => Inner.diff_some_merge_inner a b dv hr h)
    o.items n.items hR
  have hpi := Inner.merge_diff_rt_inner o.inner n.inner hoki
  by_cases hemp : (OuterDiff.mk (scalarDiff o.n n.n) (scalarDiff o.s n.s)
      (Inner.diff o.inner n.inner)
      (diffMapGo Inner.diff Inner.zero o.items n.items)).empty = true
  · have hdiff : Outer.diff o n = none := by
      rw [Outer.diff, if_pos hemp]
    simp only [OuterDiff.empty, Bool.and_eq_true] at hemp
    obtain ⟨⟨⟨hnn, hss⟩, hii⟩, hme⟩ := hemp
    have hn : n.n = o.n := by
      rcases hsd : scalarDiff o.n n.n with _ | w
      · exact (scalarDiff_eq_none_iff o.n n.n).mp hsd
      · rw [hsd] at hnn; simp at hnn
    have hsv : n.s = o.s := by
      rcases hsd : scalarDiff o.s n.s with _ | w
      · exact (scalarDiff_eq_none_iff o.s n.s).mp hsd
      · rw [hsd] at hss; simp at hss
    have hinner : o.inner = n.inner := by
      rcases hid : Inner.diff o.inner n.inner with _ | sd
      · exact Inner.diff_none_of_rtOK o.inner n.inner hoki hid
      · exfalso
        rw [hid] at hii
        simp only at hii
        have := (Inner.diff_some_eq_inner o.inner n.inner sd hid).2
        rw [this] at hii
        exact Bool.noConfusion hii
    have hentries : (diffMapGo Inner.diff Inner.zero o.items n.items).entries
        = [] := by
      simpa [SMap.isEmpty, List.isEmpty_iff] using hme
    have hml : o.items = n.items := by
      rw [hentries] at hmain
      simp only [mergeMapGo] at hmain
      have h1 := congrArg Prod.fst hmain
      simpa using h1
    have hon : o = n := by
      obtain ⟨a1, a2, a3, a4⟩ := o
      obtain ⟨b1, b2, b3, b4⟩ := n
      simp only at hn hsv hinner hml
      rw [Outer.mk.injEq]
      exact ⟨hn.symm, hsv.symm, hinner, hml⟩
    rw [hdiff, hon]
    simp [Outer.merge]
  · have hdiff : Outer.diff o n = some ⟨scalarDiff o.n n.n, scalarDiff o.s n.s,
        Inner.diff o.inner n.inner,
        diffMapGo Inner.diff Inner.zero o.items n.items⟩ := by
      rw [Outer.diff, if_neg hemp]
    rw [hdiff]
    simp only [Outer.merge]
    rw [scalarMerge_diff_rt o.n n.n, scalarMerge_diff_rt o.s n.s, hpi, hmain]
    have hinner2 : (if ((n.inner, decide (o.inner ≠ n.inner)) : Inner × Bool).2
        then ((n.inner, decide (o.inner ≠ n.inner)) : Inner × Bool).1
        else o.inner) = n.inner := by
      by_cases hie : o.inner = n.inner
      · simp [hie]
      · simp [hie]
    rw [hinner2]
    obtain ⟨a1, a2, a3, a4⟩ := o
    obtain ⟨b1, b2, b3, b4⟩ := n
    simp only
    have hiff : ((⟨a1, a2, a3, a4⟩ : Outer) ≠ ⟨b1, b2, b3, b4⟩) ↔
        (a1 ≠ b1 ∨ a2 ≠ b2 ∨ a3 ≠ b3 ∨ a4 ≠ b4) := by
      simp only [ne_eq, Outer.mk.injEq, not_and_or]
    rw [Prod.ext_iff]
    refine ⟨rfl, ?_⟩
    rw [decide_eq_decide.mpr hiff, Bool.decide_or, Bool.decide_or, Bool.decide_or]
    cases decide (a1 ≠ b1) <;> cases decide (a2 ≠ b2) <;>
      cases decide (a3 ≠ b3) <;> cases decide (a4 ≠ b4) <;> rfl

/-! ## Heap model of map storage

Go maps are reference values: a map field holds a reference to a mutable
cell.  To settle the aliasing claims (copy-on-write never mutates the base;
`Copy` does not re-allocate maps inside nested-record fields) we re-embed
`merge` and `Copy` over an explicit heap: map cells are addressed by numeric
ids, a record holds the id of each of its map fields, allocation hands out
`nextId`, and reading an unallocated id yields the empty map (Go's nil map
reads as empty).  Id 0 plays the role of the nil map of a zero-valued
record: it is never handed out in a heap whose `nextId` is positive. -/

/-- `Inner` with its map field as a heap reference. -/
structure InnerR where
  x : Int
  leafs : Nat
deriving DecidableEq

/-- The Go zero value of `Inner` in the heap model: nil map reference. -/
def InnerR.zero : InnerR := ⟨0, 0⟩

/-- `Outer` with its map field as a heap reference. -/
structure OuterR where
  n : Int
  s : String
  inner : InnerR
  items : Nat
deriving DecidableEq

structure Heap where
  leafMaps : List (Nat × SMap Leaf)
  innerMaps : List (Nat × SMap InnerR)
  nextId : Nat
deriving DecidableEq

def Heap.readLeaf (h : Heap) (r : Nat) : SMap Leaf :=
  (lookupL h.leafMaps r).getD SMap.empty

def Heap.readInner (h : Heap) (r : Nat) : SMap InnerR :=
  (lookupL h.innerMaps r).getD SMap.empty

def Heap.writeLeaf (h : Heap) (r : Nat) (m : SMap Leaf) : Heap :=
  { h with leafMaps := (r, m) :: h.leafMaps }

def Heap.writeInner (h : Heap) (r : Nat) (m : SMap InnerR) : Heap :=
  { h with innerMaps := (r, m) :: h.innerMaps }

def Heap.allocLeaf (h : Heap) (m : SMap Leaf) : Heap × Nat :=
  ({ h with leafMaps := (h.nextId, m) :: h.leafMaps, nextId := h.nextId + 1 },
   h.nextId)

def Heap.allocInner (h : Heap) (m : SMap InnerR) : Heap × Nat :=
  ({ h with innerMaps := (h.nextId, m) :: h.innerMaps, nextId := h.nextId + 1 },
   h.nextId)

/-- The `copyOnWrite` closure guarded by `sync.Once` for a leaf-map field:
on its first invocation it clones the current map into a fresh cell.
Returns the (possibly new) heap, the (possibly new) reference, and the
updated cloned/changed flag. -/
def cowLeaf (h : Heap) (r : Nat) (cloned : Bool) : Heap × Nat × Bool :=
  if cloned then (h, r, true)
  else
    let p := h.allocLeaf (h.readLeaf r)
    (p.1, p.2, true)

/-- `copyOnWrite` for an items-map field. -/
def cowInner (h : Heap) (r : Nat) (cloned : Bool) : Heap × Nat × Bool :=
  if cloned then (h, r, true)
  else
    let p := h.allocInner (h.readInner r)
    (p.1, p.2, true)

/-- The leaf-map loop of `mergeTemplate` in the heap model (the `cloned`
flag doubles as the map's contribution to `changed`, exactly as the clone
inside `sync.Once.Do` is the only statement of the loop setting
`changed`). -/
def mergeLeafEntriesH :
    List (Nat × Option LeafDiff) → Heap → Nat → Bool → Heap × Nat × Bool
  | [], h, r, cloned => (h, r, cloned)
  | (k, dc) :: rest, h, r, cloned =>
    let m := h.readLeaf r
    match dc with
    | none =>
      if (m.lookup k).isSome then
        let q := cowLeaf h r cloned
        let h2 := q.1.writeLeaf q.2.1 ((q.1.readLeaf q.2.1).erase k)
        mergeLeafEntriesH rest h2 q.2.1 q.2.2
      else mergeLeafEntriesH rest h r cloned
    | some dv =>
      let c := (m.lookup k).getD Leaf.zero
      let p := Leaf.merge c (some dv)
      if p.2 then
        let q := cowLeaf h r cloned
        let h2 := q.1.writeLeaf q.2.1 ((q.1.readLeaf q.2.1).insert k p.1)
        mergeLeafEntriesH rest h2 q.2.1 q.2.2
      else mergeLeafEntriesH rest h r cloned

/-- `func (o Inner) merge(d *InnerDiff) (Inner, bool)` in the heap model. -/
def InnerR.mergeH (h : Heap) (o : InnerR) (d : Option InnerDiff) :
    Heap × InnerR × Bool :=
  match d with
  | none => (h, o, false)
  | some dd =>
    let sx := scalarMerge o.x dd.x
    let t := mergeLeafEntriesH dd.leafs.entries h o.leafs false
    (t.1, ⟨sx.1, t.2.1⟩, sx.2 || t.2.2)

/-- The items-map loop of `mergeTemplate` in the heap model.  The element
merge runs first (possibly allocating inside the element), then the written
map is cloned if the element reported a change. -/
def mergeItemsH :
    List (Nat × Option InnerDiff) → Heap → Nat → Bool → Heap × Nat × Bool
  | [], h, r, cloned => (h, r, cloned)
  | (k, dc) :: rest, h, r, cloned =>
    let m := h.readInner r
    match dc with
    | none =>
      if (m.lookup k).isSome then
        let q := cowInner h r cloned
        let h2 := q.1.writeInner q.2.1 ((q.1.readInner q.2.1).erase k)
        mergeItemsH rest h2 q.2.1 q.2.2
      else mergeItemsH rest h r cloned
    | some dv =>
      let c := (m.lookup k).getD InnerR.zero
      let t := InnerR.mergeH h c (some dv)
      if t.2.2 then
        let q := cowInner t.1 r cloned
        let h2 := q.1.writeInner q.2.1 ((q.1.readInner q.2.1).insert k t.2.1)
        mergeItemsH rest h2 q.2.1 q.2.2
      else mergeItemsH rest t.1 r cloned

/-- `func (o Outer) merge(d *OuterDiff) (Outer, bool)` in the heap model. -/
def OuterR.mergeH (h : Heap) (o : OuterR) (d : Option OuterDiff) :
    Heap × OuterR × Bool :=
  match d with
  | none => (h, o, false)
  | some dd =>
    let sn := scalarMerge o.n dd.n
    let ss := scalarMerge o.s dd.s
    let ti := InnerR.mergeH h o.inner dd.inner
    let inner2 := if ti.2.2 then ti.2.1 else o.inner
    let tm := mergeItemsH dd.items.entries ti.1 o.items false
    (tm.1, ⟨sn.1, ss.1, inner2, tm.2.1⟩, sn.2 || ss.2 || ti.2.2 || tm.2.2)

/-! ### The generated `Copy` methods (`copyMethods`)

`copyMethods` ranges over `.Maps` only: each map field of the receiver is
re-made with every entry's `Copy` inserted.  Nested-record fields
(`.StructFields`) are NOT visited: they are copied by Go's plain struct
assignment, which copies the map reference inside them unchanged. -/

/-- `func (o Leaf) Copy() Leaf` (no map fields: plain value return). -/
def Leaf.Copy (o : Leaf) : Leaf := o

/-- The copy loop `for k, v := range o.leafs { copyleafs[k] = v.Copy() }`. -/
def copyLeafEntries : List (Nat × Leaf) → SMap Leaf → SMap Leaf
  | [], acc => acc
  | (k, v) :: rest, acc => copyLeafEntries rest (acc.insert k (Leaf.Copy v))

/-- `func (o Inner) Copy() Inner` in the heap model: the `leafs` map is
re-allocated with deep-copied entries. -/
def InnerR.CopyH (h : Heap) (o : InnerR) : Heap × InnerR :=
  let cm := copyLeafEntries (h.readLeaf o.leafs).entries SMap.empty
  let p := h.allocLeaf cm
  (p.1, { o with leafs := p.2 })

/-- The copy loop `for k, v := range o.items { copyitems[k] = v.Copy() }`. -/
def copyItemsEntries :
    List (Nat × InnerR) → Heap → SMap InnerR → Heap × SMap InnerR
  | [], h, acc => (h, acc)
  | (k, v) :: rest, h, acc =>
    let p := InnerR.CopyH h v
    copyItemsEntries rest p.1 (acc.insert k p.2)

/-- `func (o Outer) Copy() Outer` in the heap model: `items` is re-allocated
with entries copied via their own `Copy`; the nested-record field `inner`
is left exactly as in the receiver (so `inner.leafs` keeps referencing the
original cell). -/
def OuterR.CopyH (h : Heap) (o : OuterR) : Heap × OuterR :=
  let t := copyItemsEntries (h.readInner o.items).entries h SMap.empty
  let p := t.1.allocInner t.2
  (p.1, { o with items := p.2 })

/-! ### Heap lemmas -/

theorem lookupL_cons_ne {α : Type} (r id : Nat) (m : α) (l : List (Nat × α))
    (h : id ≠ r) : lookupL ((r, m) :: l) id = lookupL l id := by
  simp [lookupL, h]

@[simp] theorem lookupL_cons_self {α : Type} (r : Nat) (m : α)
    (l : List (Nat × α)) : lookupL ((r, m) :: l) r = some m := by
  simp [lookupL]

/-- All cells below `N` read the same in `h2` as in `h`, and `h2` still
only allocates at or above `N`. -/
def Heap.Pres (N : Nat) (h h2 : Heap) : Prop :=
  N ≤ h2.nextId ∧
    ∀ id, id < N →
      lookupL h2.leafMaps id = lookupL h.leafMaps id ∧
      lookupL h2.innerMaps id = lookupL h.innerMaps id

theorem Heap.Pres.refl {N : Nat} {h : Heap} (hn : N ≤ h.nextId) :
    Heap.Pres N h h :=
  ⟨hn, fun _ _ => ⟨rfl, rfl⟩⟩

theorem Heap.Pres.trans {N : Nat} {h1 h2 h3 : Heap}
    (a : Heap.Pres N h1 h2) (b : Heap.Pres N h2 h3) : Heap.Pres N h1 h3 :=
  ⟨b.1, fun id hid =>
    ⟨(b.2 id hid).1.trans (a.2 id hid).1, (b.2 id hid).2.trans (a.2 id hid).2⟩⟩

theorem Heap.Pres.writeLeaf {N : Nat} (h : Heap) (r : Nat) (m : SMap Leaf)
    (hn : N ≤ h.nextId) (hr : N ≤ r) : Heap.Pres N h (h.writeLeaf r m) :=
  ⟨hn, fun id hid =>
    ⟨lookupL_cons_ne r id m h.leafMaps (by omega), rfl⟩⟩

theorem Heap.Pres.writeInner {N : Nat} (h : Heap) (r : Nat) (m : SMap InnerR)
    (hn : N ≤ h.nextId) (hr : N ≤ r) : Heap.Pres N h (h.writeInner r m) :=
  ⟨hn, fun id hid =>
    ⟨rfl, lookupL_cons_ne r id m h.innerMaps (by omega)⟩⟩

theorem Heap.Pres.allocLeaf {N : Nat} (h : Heap) (m : SMap Leaf)
    (hn : N ≤ h.nextId) : Heap.Pres N h (h.allocLeaf m).1 :=
  ⟨by simp only [Heap.allocLeaf]; omega, fun id hid =>
    ⟨lookupL_cons_ne h.nextId id m h.leafMaps (by omega), rfl⟩⟩

theorem Heap.Pres.allocInner {N : Nat} (h : Heap) (m : SMap InnerR)
    (hn : N ≤ h.nextId) : Heap.Pres N h (h.allocInner m).1 :=
  ⟨by simp only [Heap.allocInner]; omega, fun id hid =>
    ⟨rfl, lookupL_cons_ne h.nextId id m h.innerMaps (by omega)⟩⟩

theorem cowLeaf_pres (N : Nat) (h : Heap) (r : Nat) (cloned : Bool)
    (hn : N ≤ h.nextId) (hr : cloned = true → N ≤ r) :
    Heap.Pres N h (cowLeaf h r cloned).1 ∧ N ≤ (cowLeaf h r cloned).2.1 := by
  cases cloned with
  | true => exact ⟨Heap.Pres.refl hn, hr rfl⟩
  | false =>
    simp only [cowLeaf, Bool.false_eq_true, if_false]
    exact ⟨Heap.Pres.allocLeaf h (h.readLeaf r) hn, hn⟩

theorem cowInner_pres (N : Nat) (h : Heap) (r : Nat) (cloned : Bool)
    (hn : N ≤ h.nextId) (hr : cloned = true → N ≤ r) :
    Heap.Pres N h (cowInner h r cloned).1 ∧ N ≤ (cowInner h r cloned).2.1 := by
  cases cloned with
  | true => exact ⟨Heap.Pres.refl hn, hr rfl⟩
  | false =>
    simp only [cowInner, Bool.false_eq_true, if_false]
    exact ⟨Heap.Pres.allocInner h (h.readInner r) hn, hn⟩

theorem mergeLeafEntriesH_pres (N : Nat) :
    ∀ (l : List (Nat × Option LeafDiff)) (h : Heap) (r : Nat) (cloned : Bool),
      N ≤ h.nextId → (cloned = true → N ≤ r) →
      Heap.Pres N h (mergeLeafEntriesH l h r cloned).1 ∧
      ((mergeLeafEntriesH l h r cloned).2.2 = true →
        N ≤ (mergeLeafEntriesH l h r cloned).2.1) := by
  intro l
  induction l with
  | nil =>
    intro h r cloned hn hr
    exact ⟨Heap.Pres.refl hn, hr⟩
  | cons p rest ih =>
    intro h r cloned hn hr
    obtain ⟨k, dc⟩ := p
    match dc with
    | none =>
      by_cases hin : (((h.readLeaf r).lookup k).isSome : Prop)
      · simp only [mergeLeafEntriesH, if_pos hin]
        obtain ⟨hq, hqr⟩ := cowLeaf_pres N h r cloned hn hr
        have hw := Heap.Pres.writeLeaf (cowLeaf h r cloned).1
          (cowLeaf h r cloned).2.1
          (((cowLeaf h r cloned).1.readLeaf (cowLeaf h r cloned).2.1).erase k)
          hq.1 hqr
        have hrest := ih ((cowLeaf h r cloned).1.writeLeaf
            (cowLeaf h r cloned).2.1
            (((cowLeaf h r cloned).1.readLeaf (cowLeaf h r cloned).2.1).erase k))
          (cowLeaf h r cloned).2.1 (cowLeaf h r cloned).2.2 hw.1 (fun _ => hqr)
        exact ⟨(hq.trans hw).trans hrest.1, hrest.2⟩
      · simp only [mergeLeafEntriesH, if_neg hin]
        exact ih h r cloned hn hr
    | some dv =>
      by_cases hch :
          ((Leaf.merge (((h.readLeaf r).lookup k).getD Leaf.zero)
            (some dv)).2 = true)
      · simp only [mergeLeafEntriesH, if_pos hch]
        obtain ⟨hq, hqr⟩ := cowLeaf_pres N h r cloned hn hr
        have hw := Heap.Pres.writeLeaf (cowLeaf h r cloned).1
          (cowLeaf h r cloned).2.1
          (((cowLeaf h r cloned).1.readLeaf (cowLeaf h r cloned).2.1).insert k
            (Leaf.merge (((h.readLeaf r).lookup k).getD Leaf.zero) (some dv)).1)
          hq.1 hqr
        have hrest := ih ((cowLeaf h r cloned).1.writeLeaf
            (cowLeaf h r cloned).2.1
            (((cowLeaf h r cloned).1.readLeaf (cowLeaf h r cloned).2.1).insert k
              (Leaf.merge (((h.readLeaf r).lookup k).getD Leaf.zero)
                (some dv)).1))
          (cowLeaf h r cloned).2.1 (cowLeaf h r cloned).2.2 hw.1 (fun _ => hqr)
        exact ⟨(hq.trans hw).trans hrest.1, hrest.2⟩
      · simp only [mergeLeafEntriesH, if_neg hch]
        exact ih h r cloned hn hr

theorem InnerR.mergeH_pres_inner (N : Nat) (h : Heap) (o : InnerR)
    (d : Option InnerDiff) (hn : N ≤ h.nextId) :
    Heap.Pres N h (InnerR.mergeH h o d).1 := by
  match d with
  | none => exact Heap.Pres.refl hn
  | some dd =>
    exact (mergeLeafEntriesH_pres N dd.leafs.entries h o.leafs false hn
      (by simp)).1

theorem mergeItemsH_pres (N : Nat) :
    ∀ (l : List (Nat × Option InnerDiff)) (h : Heap) (r : Nat) (cloned : Bool),
      N ≤ h.nextId → (cloned = true → N ≤ r) →
      Heap.Pres N h (mergeItemsH l h r cloned).1 ∧
      ((mergeItemsH l h r cloned).2.2 = true →
        N ≤ (mergeItemsH l h r cloned).2.1) := by
  intro l
  induction l with
  | nil =>
    intro h r cloned hn hr
    exact ⟨Heap.Pres.refl hn, hr⟩
  | cons p rest ih =>
    intro h r cloned hn hr
    obtain ⟨k, dc⟩ := p
    match dc with
    | none =>
      by_cases hin : (((h.readInner r).lookup k).isSome : Prop)
      · simp only [mergeItemsH, if_pos hin]
        obtain ⟨hq, hqr⟩ := cowInner_pres N h r cloned hn hr
        have hw := Heap.Pres.writeInner (cowInner h r cloned).1
          (cowInner h r cloned).2.1
          (((cowInner h r cloned).1.readInner (cowInner h r cloned).2.1).erase k)
          hq.1 hqr
        have hrest := ih ((cowInner h r cloned).1.writeInner
            (cowInner h r cloned).2.1
            (((cowInner h r cloned).1.readInner
              (cowInner h r cloned).2.1).erase k))
          (cowInner h r cloned).2.1 (cowInner h r cloned).2.2 hw.1 (fun _ => hqr)
        exact ⟨(hq.trans hw).trans hrest.1, hrest.2⟩
      · simp only [mergeItemsH, if_neg hin]
        exact ih h r cloned hn hr
    | some dv =>
      have ht := InnerR.mergeH_pres_inner N h
        (((h.readInner r).lookup k).getD InnerR.zero) (some dv) hn
      by_cases hch :
          ((InnerR.mergeH h (((h.readInner r).lookup k).getD InnerR.zero)
            (some dv)).2.2 = true)
      · simp only [mergeItemsH, if_pos hch]
        obtain ⟨hq, hqr⟩ := cowInner_pres N
          (InnerR.mergeH h (((h.readInner r).lookup k).getD InnerR.zero)
            (some dv)).1 r cloned ht.1 hr
        have hw := Heap.Pres.writeInner
          (cowInner (InnerR.mergeH h
            (((h.readInner r).lookup k).getD InnerR.zero) (some dv)).1 r
            cloned).1
          (cowInner (InnerR.mergeH h
            (((h.readInner r).lookup k).getD InnerR.zero) (some dv)).1 r
            cloned).2.1
          (((cowInner (InnerR.mergeH h
              (((h.readInner r).lookup k).getD InnerR.zero) (some dv)).1 r
              cloned).1.readInner
            (cowInner (InnerR.mergeH h
              (((h.readInner r).lookup k).getD InnerR.zero) (some dv)).1 r
              cloned).2.1).insert k
            (InnerR.mergeH h (((h.readInner r).lookup k).getD InnerR.zero)
              (some dv)).2.1)
          hq.1 hqr
        have hrest := ih ((cowInner (InnerR.mergeH h
            (((h.readInner r).lookup k).getD InnerR.zero) (some dv)).1 r
            cloned).1.writeInner
          (cowInner (InnerR.mergeH h
            (((h.readInner r).lookup k).getD InnerR.zero) (some dv)).1 r
            cloned).2.1
          (((cowInner (InnerR.mergeH h
              (((h.readInner r).lookup k).getD InnerR.zero) (some dv)).1 r
              cloned).1.readInner
            (cowInner (InnerR.mergeH h
              (((h.readInner r).lookup k).getD InnerR.zero) (some dv)).1 r
              cloned).2.1).insert k
            (InnerR.mergeH h (((h.readInner r).lookup k).getD InnerR.zero)
              (some dv)).2.1))
          (cowInner (InnerR.mergeH h
            (((h.readInner r).lookup k).getD InnerR.zero) (some dv)).1 r
            cloned).2.1
          (cowInner (InnerR.mergeH h
            (((h.readInner r).lookup k).getD InnerR.zero) (some dv)).1 r
            cloned).2.2
          hw.1 (fun _ => hqr)
        exact ⟨((ht.trans hq).trans hw).trans hrest.1, hrest.2⟩
      · simp only [mergeItemsH, if_neg hch]
        have hrest := ih (InnerR.mergeH h
            (((h.readInner r).lookup k).getD InnerR.zero) (some dv)).1 r cloned
          ht.1 hr
        exact ⟨ht.trans hrest.1, hrest.2⟩

theorem OuterR.mergeH_pres_outer (h : Heap) (o : OuterR) (d : Option OuterDiff) :
    Heap.Pres h.nextId h (OuterR.mergeH h o d).1 := by
  match d with
  | none => exact Heap.Pres.refl (Nat.le_refl _)
  | some dd =>
    have h1 := InnerR.mergeH_pres_inner h.nextId h o.inner dd.inner (Nat.le_refl _)
    have h2 := (mergeItemsH_pres h.nextId dd.items.entries
      (InnerR.mergeH h o.inner dd.inner).1 o.items false h1.1 (by simp)).1
    exact h1.trans h2

/-! ### The inner-map store is untouched by leaf-level merging -/

theorem mergeLeafEntriesH_innerMaps :
    ∀ (l : List (Nat × Option LeafDiff)) (h : Heap) (r : Nat) (cloned : Bool),
      (mergeLeafEntriesH l h r cloned).1.innerMaps = h.innerMaps := by
  intro l
  induction l with
  | nil => intro h r cloned; rfl
  | cons p rest ih =>
    intro h r cloned
    obtain ⟨k, dc⟩ := p
    match dc with
    | none =>
      by_cases hin : (((h.readLeaf r).lookup k).isSome : Prop)
      · simp only [mergeLeafEntriesH, if_pos hin]
        rw [ih]
        cases cloned <;> rfl
      · simp only [mergeLeafEntriesH, if_neg hin]
        exact ih h r cloned
    | some dv =>
      by_cases hch :
          ((Leaf.merge (((h.readLeaf r).lookup k).getD Leaf.zero)
            (some dv)).2 = true)
      · simp only [mergeLeafEntriesH, if_pos hch]
        rw [ih]
        cases cloned <;> rfl
      · simp only [mergeLeafEntriesH, if_neg hch]
        exact ih h r cloned

theorem InnerR.mergeH_innerMaps (h : Heap) (o : InnerR) (d : Option InnerDiff) :
    (InnerR.mergeH h o d).1.innerMaps = h.innerMaps := by
  match d with
  | none => rfl
  | some dd => exact mergeLeafEntriesH_innerMaps dd.leafs.entries h o.leafs false

/-! ### Read/write lemmas -/

@[simp] theorem Heap.readInner_writeInner_self (h : Heap) (r : Nat)
    (m : SMap InnerR) : (h.writeInner r m).readInner r = m := by
  simp [Heap.readInner, Heap.writeInner]

theorem Heap.readInner_writeInner_other (h : Heap) (r id : Nat)
    (m : SMap InnerR) (hne : id ≠ r) :
    (h.writeInner r m).readInner id = h.readInner id := by
  simp only [Heap.readInner, Heap.writeInner]
  rw [lookupL_cons_ne r id m h.innerMaps hne]

theorem Heap.readInner_eq_of_innerMaps_eq {h1 h2 : Heap}
    (e : h1.innerMaps = h2.innerMaps) (r : Nat) :
    h1.readInner r = h2.readInner r := by
  simp [Heap.readInner, e]

theorem Heap.readInner_eq_of_lookup_eq {h1 h2 : Heap} (r : Nat)
    (e : lookupL h1.innerMaps r = lookupL h2.innerMaps r) :
    h1.readInner r = h2.readInner r := by
  simp [Heap.readInner, e]

theorem cowInner_read (h : Heap) (r : Nat) (cloned : Bool) :
    (cowInner h r cloned).1.readInner (cowInner h r cloned).2.1 =
      h.readInner r := by
  cases cloned with
  | true => rfl
  | false =>
    simp only [cowInner, Bool.false_eq_true, if_false]
    simp [Heap.allocInner, Heap.readInner]

/-! ### Splitting an entry out of a sorted list -/

theorem lookupL_split {α : Type} {k : Nat} {v : α} :
    ∀ (l : List (Nat × α)), lookupL l k = some v →
      ∃ l₁ l₂, l = l₁ ++ (k, v) :: l₂ ∧ (∀ p ∈ l₁, p.1 ≠ k) := by
  intro l
  induction l with
  | nil => intro h; simp [lookupL] at h
  | cons p rest ih =>
    intro h
    obtain ⟨a, b⟩ := p
    by_cases hk : k = a
    · subst hk
      simp only [lookupL, if_pos rfl] at h
      cases h
      exact ⟨[], rest, rfl, by simp⟩
    · simp only [lookupL, if_neg hk] at h
      obtain ⟨l₁, l₂, he, hn⟩ := ih h
      refine ⟨(a, b) :: l₁, l₂, by rw [List.cons_append, he], ?_⟩
      intro q hq
      rcases List.mem_cons.mp hq with h' | h'
      · subst h'
        exact fun e => hk e.symm
      · exact hn q h'

theorem keys_ne_of_pairwise_split {α : Type} {l₁ l₂ : List (Nat × α)}
    {k : Nat} {v : α} (hs : (l₁ ++ (k, v) :: l₂).Pairwise entLt) :
    ∀ p ∈ l₂, p.1 ≠ k := by
  have h2 := (List.pairwise_append.mp hs).2.1
  rw [List.pairwise_cons] at h2
  intro p hp
  have := h2.1 p hp
  simp only [entLt] at this
  omega

theorem eraseL_append {α : Type} (k : Nat) (v : α) :
    ∀ (l₁ l₂ : List (Nat × α)), (∀ p ∈ l₁, p.1 ≠ k) →
      eraseL k (l₁ ++ (k, v) :: l₂) = l₁ ++ l₂ := by
  intro l₁
  induction l₁ with
  | nil => intro l₂ _; simp [eraseL]
  | cons p rest ih =>
    intro l₂ hne
    obtain ⟨a, b⟩ := p
    have ha : k ≠ a := fun e => (hne (a, b) (by simp)) e.symm
    simp only [List.cons_append, eraseL, if_neg ha]
    exact congrArg (fun t => (a, b) :: t)
      (ih l₂ (fun q hq => hne q (List.mem_cons_of_mem _ hq)))

/-! ### A nil-marker entry for a key absent from the base map is a no-op -/

theorem mergeItemsH_skip (k : Nat) (l₂ : List (Nat × Option InnerDiff)) :
    ∀ (l₁ : List (Nat × Option InnerDiff)) (h : Heap) (r : Nat) (cloned : Bool),
      (∀ p ∈ l₁, p.1 ≠ k) →
      (h.readInner r).lookup k = none →
      mergeItemsH (l₁ ++ (k, none) :: l₂) h r cloned =
        mergeItemsH (l₁ ++ l₂) h r cloned := by
  intro l₁
  induction l₁ with
  | nil =>
    intro h r cloned _ hlk
    simp only [List.nil_append]
    show mergeItemsH ((k, none) :: l₂) h r cloned = mergeItemsH l₂ h r cloned
    simp only [mergeItemsH, hlk]
    simp
  | cons q rest ih =>
    intro h r cloned hne hlk
    obtain ⟨k', dc'⟩ := q
    have hk' : k' ≠ k := hne (k', dc') (by simp)
    have hkk : k ≠ k' := fun e => hk' e.symm
    have hnerest : ∀ p ∈ rest, p.1 ≠ k :=
      fun p hp => hne p (List.mem_cons_of_mem _ hp)
    match dc' with
    | none =>
      by_cases hin : (((h.readInner r).lookup k').isSome : Prop)
      · simp only [List.cons_append, mergeItemsH, if_pos hin]
        apply ih _ _ _ hnerest
        rw [Heap.readInner_writeInner_self,
          SMap.lookup_erase_other _ k' k hkk, cowInner_read]
        exact hlk
      · simp only [List.cons_append, mergeItemsH, if_neg hin]
        exact ih h r cloned hnerest hlk
    | some dv =>
      have hinv : ((InnerR.mergeH h
          (((h.readInner r).lookup k').getD InnerR.zero)
          (some dv)).1.readInner r).lookup k = none := by
        rw [Heap.readInner_eq_of_innerMaps_eq
          (InnerR.mergeH_innerMaps h _ (some dv)) r]
        exact hlk
      by_cases hch :
          ((InnerR.mergeH h (((h.readInner r).lookup k').getD InnerR.zero)
            (some dv)).2.2 = true)
      · simp only [List.cons_append, mergeItemsH, if_pos hch]
        apply ih _ _ _ hnerest
        rw [Heap.readInner_writeInner_self,
          SMap.lookup_insert_other _ k' k _ hkk, cowInner_read]
        exact hinv
      · simp only [List.cons_append, mergeItemsH, if_neg hch]
        exact ih _ r cloned hnerest hinv

/-! ### Freshness of the maps produced by `Copy` -/

theorem copyItemsEntries_spec (N : Nat) :
    ∀ (l : List (Nat × InnerR)) (h : Heap) (acc : SMap InnerR),
      N ≤ h.nextId →
      (∀ p ∈ acc.entries, N ≤ p.2.leafs) →
      Heap.Pres N h (copyItemsEntries l h acc).1 ∧
      (∀ p ∈ (copyItemsEntries l h acc).2.entries, N ≤ p.2.leafs) := by
  intro l
  induction l with
  | nil =>
    intro h acc hn hacc
    exact ⟨Heap.Pres.refl hn, hacc⟩
  | cons q rest ih =>
    intro h acc hn hacc
    obtain ⟨k, v⟩ := q
    simp only [copyItemsEntries]
    have hp : Heap.Pres N h (InnerR.CopyH h v).1 :=
      Heap.Pres.allocLeaf h _ hn
    have hfresh : N ≤ (InnerR.CopyH h v).2.leafs := hn
    have hacc2 : ∀ p ∈ (acc.insert k (InnerR.CopyH h v).2).entries,
        N ≤ p.2.leafs := by
      intro p hpm
      rcases mem_insertL k (InnerR.CopyH h v).2 acc.entries p hpm with h' | h'
      · rw [h']
        exact hfresh
      · exact hacc p h'
    have hrest := ih (InnerR.CopyH h v).1 (acc.insert k (InnerR.CopyH h v).2)
      hp.1 hacc2
    exact ⟨hp.trans hrest.1, hrest.2⟩

@[simp] theorem Heap.readInner_allocInner_self (h : Heap) (m : SMap InnerR) :
    (h.allocInner m).1.readInner (h.allocInner m).2 = m := by
  simp [Heap.allocInner, Heap.readInner]

/-! ## Concrete sample values used in witnesses and counterexamples -/

def wInner1 : Inner := ⟨1, SMap.empty.insert 0 ⟨7⟩⟩

def wInner2 : Inner := ⟨2, (SMap.empty.insert 0 ⟨7⟩).insert 1 ⟨9⟩⟩

def wOld : Outer :=
  ⟨10, "a", wInner1, (SMap.empty.insert 0 wInner1).insert 1 wInner2⟩

def wNew : Outer := ⟨11, "b", wInner2, SMap.empty.insert 0 wInner2⟩

/-! ## Claims -/

/-- C1, counterexample: the round-trip law `merge(old, diff(old, new)) = new`
fails as stated.  With `old` having an empty `items` map and `new` holding
the zero-valued `Inner` record under key 0, the generated diff of the fresh
key diffs the zero record against the zero record, obtains nil, records no
entry, and the overall diff collapses to nil; merging it back leaves `old`
unchanged, which differs from `new`. -/
theorem C1_roundtrip_counterexample :
    (Outer.merge ⟨0, "", Inner.zero, SMap.empty⟩
        (Outer.diff ⟨0, "", Inner.zero, SMap.empty⟩
          ⟨0, "", Inner.zero, SMap.empty.insert 0 Inner.zero⟩)).1 ≠
      ⟨0, "", Inner.zero, SMap.empty.insert 0 Inner.zero⟩ := by
  decide

/-- C1 (amended): `merge(old, diff(old, new)) = new` holds whenever,
recursively at every map of `new` (each compared against the value it is
diffed with: the entry of `old` when the key is present there, the
zero-valued record otherwise), every key of `new` absent from the old side
carries a non-zero-valued record (`Outer.rtOK`).  The unrestricted law is
refuted by `C1_roundtrip_counterexample`. -/
theorem C1_roundtrip_amended (o n : Outer) (h : Outer.rtOK o n = true) :
    (Outer.merge o (Outer.diff o n)).1 = n := by
  rw [Outer.merge_diff_rt_outer o n h]

theorem C1_roundtrip_amended_witness :
    Outer.rtOK wOld wNew = true ∧
      (Outer.merge wOld (Outer.diff wOld wNew)).1 = wNew :=
  ⟨by decide, C1_roundtrip_amended wOld wNew (by decide)⟩

def c2Heap : Heap := ⟨[(1, SMap.empty.insert 0 ⟨7⟩)], [], 2⟩

def c2x : OuterR := ⟨0, "", ⟨0, 1⟩, 0⟩

/-- C2, counterexample: `Copy` does NOT make nested-record fields
independent.  `copyMethods` only re-allocates the receiver's own map
fields; the nested-record field `inner` is copied by plain struct
assignment, so `copy(x).inner.leafs` is the same heap cell as
`x.inner.leafs`: writing entry 0 := ⟨9⟩ through the copy changes the entry
observable through `x` (which held ⟨7⟩). -/
theorem C2_copy_counterexample :
    ((OuterR.CopyH c2Heap c2x).2.inner.leafs = c2x.inner.leafs) ∧
    ((((OuterR.CopyH c2Heap c2x).1.writeLeaf
        (OuterR.CopyH c2Heap c2x).2.inner.leafs
        (((OuterR.CopyH c2Heap c2x).1.readLeaf
          (OuterR.CopyH c2Heap c2x).2.inner.leafs).insert 0 ⟨9⟩)).readLeaf
        c2x.inner.leafs).lookup 0 = some ⟨9⟩) ∧
    ((c2Heap.readLeaf c2x.inner.leafs).lookup 0 = some ⟨7⟩) := by
  decide

/-- Unfolding of `OuterR.CopyH` used to reason about its pieces. -/
theorem OuterR.CopyH_eq (h : Heap) (x : OuterR) :
    OuterR.CopyH h x =
      (((copyItemsEntries (h.readInner x.items).entries h
          SMap.empty).1.allocInner
          (copyItemsEntries (h.readInner x.items).entries h SMap.empty).2).1,
       { x with items := ((copyItemsEntries (h.readInner x.items).entries h
            SMap.empty).1.allocInner
            (copyItemsEntries (h.readInner x.items).entries h
              SMap.empty).2).2 }) := rfl

/-- C2 (amended): `Copy` freshly allocates the record's own map field with
every entry deep-copied through the entry type's `Copy` (so the entries' own
maps are fresh as well), it never mutates any pre-existing cell, and
overwriting the copy's `items` cell never changes the map observable through
`x.items`; only maps reached through nested-record fields stay shared
(refuted part, see `C2_copy_counterexample`). -/
theorem C2_copy_amended (h : Heap) (x : OuterR) (hx : x.items < h.nextId) :
    (h.nextId ≤ (OuterR.CopyH h x).2.items) ∧
    (∀ id, id < h.nextId →
      lookupL (OuterR.CopyH h x).1.leafMaps id = lookupL h.leafMaps id ∧
      lookupL (OuterR.CopyH h x).1.innerMaps id = lookupL h.innerMaps id) ∧
    (∀ k c, ((OuterR.CopyH h x).1.readInner
        (OuterR.CopyH h x).2.items).lookup k = some c →
      h.nextId ≤ c.leafs) ∧
    (∀ m2, ((OuterR.CopyH h x).1.writeInner (OuterR.CopyH h x).2.items
        m2).readInner x.items = h.readInner x.items) := by
  have hspec := copyItemsEntries_spec h.nextId (h.readInner x.items).entries h
    SMap.empty (Nat.le_refl _) (by intro p hp; simp [SMap.empty] at hp)
  have halloc := Heap.Pres.allocInner
    (copyItemsEntries (h.readInner x.items).entries h SMap.empty).1
    (copyItemsEntries (h.readInner x.items).entries h SMap.empty).2 hspec.1.1
  have hpres := hspec.1.trans halloc
  rw [OuterR.CopyH_eq]
  refine ⟨hspec.1.1, fun id hid => hpres.2 id hid, ?_, ?_⟩
  · intro k c hkc
    simp only [Heap.readInner_allocInner_self] at hkc
    exact hspec.2 (k, c) (mem_of_lookupL_eq_some hkc)
  · intro m2
    have hne : x.items ≠
        ((copyItemsEntries (h.readInner x.items).entries h
          SMap.empty).1.allocInner
          (copyItemsEntries (h.readInner x.items).entries h SMap.empty).2).2 := by
      have h1 : h.nextId ≤ (copyItemsEntries (h.readInner x.items).entries h
          SMap.empty).1.nextId := hspec.1.1
      show x.items ≠ (copyItemsEntries (h.readInner x.items).entries h
          SMap.empty).1.nextId
      omega
    rw [Heap.readInner_writeInner_other _ _ _ _ hne]
    exact Heap.readInner_eq_of_lookup_eq x.items (hpres.2 x.items hx).2

theorem C2_copy_amended_witness :
    c2x.items < c2Heap.nextId ∧
    (c2Heap.nextId ≤ (OuterR.CopyH c2Heap c2x).2.items) ∧
    (lookupL (OuterR.CopyH c2Heap c2x).1.leafMaps 1 =
      lookupL c2Heap.leafMaps 1) ∧
    (((OuterR.CopyH c2Heap c2x).1.writeInner
      (OuterR.CopyH c2Heap c2x).2.items
      (SMap.empty.insert 9 ⟨0, 0⟩)).readInner c2x.items =
        c2Heap.readInner c2x.items) := by
  refine ⟨by decide, ?_, ?_, ?_⟩
  · exact (C2_copy_amended c2Heap c2x (by decide)).1
  · exact ((C2_copy_amended c2Heap c2x (by decide)).2.1 1 (by decide)).1
  · exact (C2_copy_amended c2Heap c2x (by decide)).2.2.2
      (SMap.empty.insert 9 ⟨0, 0⟩)

/-- C5: merging an absent (nil) delta returns exactly `(base, false)` with
no copying: in the heap model the heap is returned untouched (no clone, no
allocation) and the record keeps its map references as-is; this holds at
every nesting level. -/
theorem C5_merge_noop :
    (∀ x : Outer, Outer.merge x none = (x, false)) ∧
    (∀ (h : Heap) (y : OuterR), OuterR.mergeH h y none = (h, y, false)) ∧
    (∀ y : Inner, Inner.merge y none = (y, false)) ∧
    (∀ (h : Heap) (y : InnerR), InnerR.mergeH h y none = (h, y, false)) ∧
    (∀ z : Leaf, Leaf.merge z none = (z, false)) :=
  ⟨fun _ => rfl, fun _ _ => rfl, fun _ => rfl, fun _ _ => rfl, fun _ => rfl⟩

/-- C4: diffing a value against itself yields the absent (nil) result --
not a populated-but-empty delta -- at every nesting level. -/
theorem C4_noop_diff :
    (∀ x : Outer, Outer.diff x x = none) ∧
    (∀ y : Inner, Inner.diff y y = none) ∧
    (∀ z : Leaf, Leaf.diff z z = none) :=
  ⟨Outer.diff_self_outer, Inner.diff_self_inner, Leaf.diff_self_leaf⟩

def c3Base : Outer := ⟨5, "", Inner.zero, SMap.empty⟩

def c3d : OuterDiff := ⟨some 5, none, none, SMap.empty⟩

/-- C3, counterexample: the generated scalar-slot merge is NOT
unconditional: `if d.F != nil && *d.F != o.F` skips the write and leaves
`changed` false when the present value equals the base's field.  Here the
delta's `n` slot holds 5, the base's `n` is 5, and merge reports
`changed = false`. -/
theorem C3_scalar_counterexample :
    c3d.n = some 5 ∧ c3Base.n = 5 ∧
      Outer.merge c3Base (some c3d) = (c3Base, false) := by
  decide

/-- C3 (amended): for each scalar slot of the delta holding a present value,
the merged record's corresponding field equals that value, and the changed
flag is set to true whenever the present value differs from the base's
current field; a present-but-equal value performs no overwrite and leaves
`changed` untouched (see `C3_scalar_counterexample`). -/
theorem C3_scalar_merge_amended (o : Outer) (d : OuterDiff) :
    (∀ w, d.n = some w → (Outer.merge o (some d)).1.n = w ∧
      (w ≠ o.n → (Outer.merge o (some d)).2 = true)) ∧
    (∀ w, d.s = some w → (Outer.merge o (some d)).1.s = w ∧
      (w ≠ o.s → (Outer.merge o (some d)).2 = true)) := by
  simp only [Outer.merge]
  constructor
  · intro w h
    constructor
    · rw [h]
      by_cases hw : w = o.n
      · simp [scalarMerge, hw]
      · simp [scalarMerge, hw]
    · intro hne
      rw [h]
      have hsc : (scalarMerge o.n (some w)).2 = true := by
        simp [scalarMerge, hne]
      simp [hsc]
  · intro w h
    constructor
    · rw [h]
      by_cases hw : w = o.s
      · simp [scalarMerge, hw]
      · simp [scalarMerge, hw]
    · intro hne
      rw [h]
      have hsc : (scalarMerge o.s (some w)).2 = true := by
        simp [scalarMerge, hne]
      simp [hsc]

def c3wBase : Outer := ⟨5, "", Inner.zero, SMap.empty⟩

def c3wd : OuterDiff := ⟨some 9, some "z", none, SMap.empty⟩

theorem C3_scalar_merge_amended_witness :
    ((Outer.merge c3wBase (some c3wd)).1.n = 9 ∧
      ((9 : Int) ≠ c3wBase.n → (Outer.merge c3wBase (some c3wd)).2 = true)) ∧
    ((Outer.merge c3wBase (some c3wd)).1.s = "z" ∧
      ("z" ≠ c3wBase.s → (Outer.merge c3wBase (some c3wd)).2 = true)) :=
  ⟨(C3_scalar_merge_amended c3wBase c3wd).1 9 rfl,
   (C3_scalar_merge_amended c3wBase c3wd).2 "z" rfl⟩

/-- C6: merge never mutates its base argument's storage.  Every heap cell
that existed before the call (id below the allocation counter) reads the
same after merge, for both map stores, and the allocation counter only
grows: the copy-on-write loop writes only to cells it freshly cloned. -/
theorem C6_merge_never_mutates_base (h : Heap) (o : OuterR)
    (d : Option OuterDiff) (id : Nat) (hid : id < h.nextId) :
    (OuterR.mergeH h o d).1.readLeaf id = h.readLeaf id ∧
    (OuterR.mergeH h o d).1.readInner id = h.readInner id ∧
    h.nextId ≤ (OuterR.mergeH h o d).1.nextId := by
  have hp := OuterR.mergeH_pres_outer h o d
  refine ⟨?_, ?_, hp.1⟩
  · simp only [Heap.readLeaf]
    rw [(hp.2 id hid).1]
  · exact Heap.readInner_eq_of_lookup_eq id (hp.2 id hid).2

def c6Heap : Heap :=
  ⟨[(1, SMap.empty.insert 0 ⟨7⟩)], [(2, SMap.empty.insert 5 ⟨3, 1⟩)], 3⟩

def c6o : OuterR := ⟨0, "", ⟨0, 1⟩, 2⟩

def c6d : OuterDiff := ⟨none, none, none, SMap.empty.insert 5 none⟩

theorem C6_merge_never_mutates_base_witness :
    1 < c6Heap.nextId ∧
    ((OuterR.mergeH c6Heap c6o (some c6d)).1.readLeaf 1 =
      c6Heap.readLeaf 1 ∧
     (OuterR.mergeH c6Heap c6o (some c6d)).1.readInner 1 =
      c6Heap.readInner 1 ∧
     c6Heap.nextId ≤ (OuterR.mergeH c6Heap c6o (some c6d)).1.nextId) :=
  ⟨by decide, C6_merge_never_mutates_base c6Heap c6o (some c6d) 1 (by decide)⟩

/-- C7: per-key reporting of a map-field diff, for every produced delta:
a key present in both records with equal values gets no entry; a key only in
`new` gets exactly the diff of the zero-valued record against the new value
(in particular, no entry when that diff is absent); a key only in `old` gets
the nil-marker.  The claim's `{a: R1, b: R2} -> {a: R1}` example is
instantiated in the witness. -/
theorem C7_map_diff_reporting (o n : Outer) (i : OuterDiff)
    (h : Outer.diff o n = some i) :
    (∀ k c, o.items.lookup k = some c → n.items.lookup k = some c →
      i.items.lookup k = none) ∧
    (∀ k nv, n.items.lookup k = some nv → o.items.lookup k = none →
      i.items.lookup k = Option.map some (Inner.diff Inner.zero nv)) ∧
    (∀ k, (o.items.lookup k).isSome = true → n.items.lookup k = none →
      i.items.lookup k = some none) := by
  obtain ⟨hi, _⟩ := Outer.diff_some_eq_outer o n i h
  subst hi
  refine ⟨?_, ?_, ?_⟩
  · intro k c ho hn
    show (diffMapGo Inner.diff Inner.zero o.items n.items).lookup k = none
    rw [diffMapGo_lookup, hn, ho]
    simp [Inner.diff_self_inner]
  · intro k nv hn ho
    show (diffMapGo Inner.diff Inner.zero o.items n.items).lookup k =
      Option.map some (Inner.diff Inner.zero nv)
    rw [diffMapGo_lookup, hn, ho]
    rcases hd : Inner.diff Inner.zero nv with _ | dv <;> simp [hd]
  · intro k hos hn
    show (diffMapGo Inner.diff Inner.zero o.items n.items).lookup k = some none
    rw [diffMapGo_lookup, hn]
    rcases ho : o.items.lookup k with _ | c
    · rw [ho] at hos
      simp at hos
    · simp

def c7Old : Outer :=
  ⟨0, "", Inner.zero, (SMap.empty.insert 0 wInner1).insert 1 wInner2⟩

def c7New : Outer := ⟨0, "", Inner.zero, SMap.empty.insert 0 wInner1⟩

def c7i : OuterDiff := ⟨none, none, none, SMap.empty.insert 1 none⟩

theorem C7_map_diff_reporting_witness :
    Outer.diff c7Old c7New = some c7i ∧
    c7i.items.lookup 1 = some none ∧
    c7i.items.lookup 0 = none := by
  refine ⟨by decide, ?_, ?_⟩
  · exact (C7_map_diff_reporting c7Old c7New c7i (by decide)).2.2 1
      (by decide) (by decide)
  · exact (C7_map_diff_reporting c7Old c7New c7i (by decide)).1 0 wInner1
      (by decide) (by decide)

/-- C8: the changed flag returned by merge is exact at every nesting level,
for arbitrary deltas (not only diff outputs): it is true exactly when the
returned value differs from the base. -/
theorem C8_changed_flag_exact :
    (∀ (o : Outer) (d : Option OuterDiff),
      (Outer.merge o d).2 = true ↔ (Outer.merge o d).1 ≠ o) ∧
    (∀ (o : Inner) (d : Option InnerDiff),
      (Inner.merge o d).2 = true ↔ (Inner.merge o d).1 ≠ o) ∧
    (∀ (o : Leaf) (d : Option LeafDiff),
      (Leaf.merge o d).2 = true ↔ (Leaf.merge o d).1 ≠ o) :=
  ⟨Outer.merge_exact_outer, Inner.merge_exact_inner, Leaf.merge_exact_leaf⟩

/-- Every entry of the leaf-diff map of a produced `InnerDiff` is a
nil-marker or a non-empty sub-delta. -/
theorem Inner.diff_entries_wf (a b : Inner) (d : InnerDiff)
    (h : Inner.diff a b = some d) :
    d.empty = false ∧
    ∀ k e, d.leafs.lookup k = some e →
      e = none ∨ ∃ dl, e = some dl ∧ dl.empty = false := by
  obtain ⟨hd, hne⟩ := Inner.diff_some_eq_inner a b d h
  subst hd
  refine ⟨hne, ?_⟩
  intro k e hk
  have hk2 : (diffMapGo Leaf.diff Leaf.zero a.leafs b.leafs).lookup k =
      some e := hk
  rw [diffMapGo_lookup] at hk2
  rcases hn : b.leafs.lookup k with _ | nv
  · rcases ho : a.leafs.lookup k with _ | ov
    · rw [hn, ho] at hk2
      simp at hk2
    · rw [hn, ho] at hk2
      simp at hk2
      exact Or.inl hk2.symm
  · rcases hvd : Leaf.diff ((a.leafs.lookup k).getD Leaf.zero) nv with _ | ip
    · rw [hn] at hk2
      simp [hvd] at hk2
    · rw [hn] at hk2
      simp [hvd] at hk2
      exact Or.inr ⟨ip, hk2.symm, (Leaf.diff_some_eq_leaf _ _ _ hvd).2⟩

/-- C9: a produced delta never holds an explicit-empty map entry: every
entry of every map in the delta is a nil-marker or a non-empty sub-delta
(at both nesting levels, and for the nested-record slot), and a key present
in `new` but absent from `old` whose value is the zero-valued record yields
no entry at all -- so the generated `Empty()` entry constructor is never
exercised by diff. -/
theorem C9_no_explicit_empty (o n : Outer) (i : OuterDiff)
    (h : Outer.diff o n = some i) :
    (∀ k e, i.items.lookup k = some e →
      e = none ∨ ∃ dv, e = some dv ∧ dv.empty = false) ∧
    (∀ k dv, i.items.lookup k = some (some dv) →
      ∀ k2 e2, dv.leafs.lookup k2 = some e2 →
        e2 = none ∨ ∃ dl, e2 = some dl ∧ dl.empty = false) ∧
    (∀ di, i.inner = some di → di.empty = false ∧
      ∀ k2 e2, di.leafs.lookup k2 = some e2 →
        e2 = none ∨ ∃ dl, e2 = some dl ∧ dl.empty = false) ∧
    (∀ k, n.items.lookup k = some Inner.zero → o.items.lookup k = none →
      i.items.lookup k = none) := by
  obtain ⟨hi, _⟩ := Outer.diff_some_eq_outer o n i h
  subst hi
  have hentry : ∀ k e,
      (diffMapGo Inner.diff Inner.zero o.items n.items).lookup k = some e →
      e = none ∨ ∃ nv dv, e = some dv ∧
        Inner.diff ((o.items.lookup k).getD Inner.zero) nv = some dv := by
    intro k e hk
    rw [diffMapGo_lookup] at hk
    rcases hn : n.items.lookup k with _ | nv
    · rcases ho : o.items.lookup k with _ | ov
      · rw [hn, ho] at hk
        simp at hk
      · rw [hn, ho] at hk
        simp at hk
        exact Or.inl hk.symm
    · rcases hvd : Inner.diff ((o.items.lookup k).getD Inner.zero) nv
          with _ | ip
      · rw [hn] at hk
        simp [hvd] at hk
      · rw [hn] at hk
        simp [hvd] at hk
        exact Or.inr ⟨nv, ip, hk.symm, hvd⟩
  refine ⟨?_, ?_, ?_, ?_⟩
  · intro k e hk
    rcases hentry k e hk with he | ⟨nv, dv, he, hvd⟩
    · exact Or.inl he
    · exact Or.inr ⟨dv, he, (Inner.diff_some_eq_inner _ _ _ hvd).2⟩
  · intro k dv hk
    rcases hentry k (some dv) hk with he | ⟨nv, dv', he, hvd⟩
    · exact absurd he (by simp)
    · have hdv : dv' = dv := by
        simpa using he.symm
      subst hdv
      exact (Inner.diff_entries_wf _ _ _ hvd).2
  · intro di hdi
    have hdi2 : Inner.diff o.inner n.inner = some di := hdi
    exact ⟨(Inner.diff_some_eq_inner _ _ _ hdi2).2,
      (Inner.diff_entries_wf _ _ _ hdi2).2⟩
  · intro k hzero ho
    show (diffMapGo Inner.diff Inner.zero o.items n.items).lookup k = none
    rw [diffMapGo_lookup, hzero, ho]
    simp [Inner.diff_self_inner]

def c9zOld : Outer := ⟨0, "", Inner.zero, SMap.empty⟩

def c9zNew : Outer := ⟨3, "", Inner.zero, SMap.empty.insert 0 Inner.zero⟩

def c9zi : OuterDiff := ⟨some 3, none, none, SMap.empty⟩

def c9iInner : InnerDiff := ⟨some 2, SMap.empty.insert 1 (some ⟨some 9⟩)⟩

def c9i : OuterDiff :=
  ⟨some 11, some "b", some c9iInner,
   (SMap.empty.insert 0 (some c9iInner)).insert 1 none⟩

theorem C9_no_explicit_empty_witness :
    Outer.diff c9zOld c9zNew = some c9zi ∧
    c9zi.items.lookup 0 = none ∧
    Outer.diff wOld wNew = some c9i ∧
    (some c9iInner = none ∨
      ∃ dv, (some c9iInner : Option InnerDiff) = some dv ∧
        dv.empty = false) := by
  refine ⟨by decide, ?_, by decide, ?_⟩
  · exact (C9_no_explicit_empty c9zOld c9zNew c9zi (by decide)).2.2.2 0
      (by decide) (by decide)
  · exact (C9_no_explicit_empty wOld wNew c9i (by decide)).1 0
      (some c9iInner) (by decide)

/-- C10: a nil-marker entry for a key that is absent from the base's map is
a complete no-op: merging the delta is exactly equal -- heap included, so no
clone, no allocation, no write, and no contribution to the changed flag --
to merging the same delta with that entry removed. -/
theorem C10_nil_marker_absent_key (h : Heap) (o : OuterR) (d : OuterDiff)
    (k : Nat) (h1 : d.items.lookup k = some none)
    (h2 : (h.readInner o.items).lookup k = none) :
    OuterR.mergeH h o (some d) =
      OuterR.mergeH h o (some { d with items := d.items.erase k }) := by
  obtain ⟨dn, ds, di, dm⟩ := d
  simp only at h1
  obtain ⟨l₁, l₂, he, hn1⟩ := lookupL_split dm.entries h1
  have herase : (dm.erase k).entries = l₁ ++ l₂ := by
    show eraseL k dm.entries = l₁ ++ l₂
    rw [he]
    exact eraseL_append k none l₁ l₂ hn1
  have hinv : ((InnerR.mergeH h o.inner di).1.readInner o.items).lookup k
      = none := by
    rw [Heap.readInner_eq_of_innerMaps_eq
      (InnerR.mergeH_innerMaps h o.inner di) o.items]
    exact h2
  have hskip := mergeItemsH_skip k l₂ l₁ (InnerR.mergeH h o.inner di).1
    o.items false hn1 hinv
  have hloops : mergeItemsH dm.entries (InnerR.mergeH h o.inner di).1
      o.items false =
      mergeItemsH (dm.erase k).entries (InnerR.mergeH h o.inner di).1
        o.items false := by
    rw [he, herase]
    exact hskip
  simp only [OuterR.mergeH]
  rw [hloops]

def c10Heap : Heap := ⟨[], [(1, SMap.empty.insert 5 ⟨7, 0⟩)], 2⟩

def c10o : OuterR := ⟨0, "", ⟨0, 0⟩, 1⟩

def c10d : OuterDiff := ⟨some 4, none, none, SMap.empty.insert 3 none⟩

theorem C10_nil_marker_absent_key_witness :
    c10d.items.lookup 3 = some none ∧
    (c10Heap.readInner c10o.items).lookup 3 = none ∧
    OuterR.mergeH c10Heap c10o (some c10d) =
      OuterR.mergeH c10Heap c10o
        (some { c10d with items := c10d.items.erase 3 }) :=
  ⟨by decide, by decide,
   C10_nil_marker_absent_key c10Heap c10o c10d 3 (by decide) (by decide)⟩

end Svckit
